import Mathlib

/-
Verification of the nye-2025 repository (a New Year's goals / countdown
single-page application) against its natural-language specification.

The development shallowly embeds the relevant program logic:

* `src/components/ShaderFireworks.tsx` — the fixed-capacity buffer of
  shader-driven firework explosions (`spawn`, the per-frame advancer).
* `src/components/ScrollingNumber.tsx` — `computeForwardPositions`.
* `src/components/ScrollIndicator.tsx` — the keyboard-driven section index.
* `src/components/confetti.tsx` / `DramaticCountdown` — countdown parts and
  the "pressure" value.
* `src/App.tsx` — the goals data layer (load / realtime insert / submit) and
  the timezone-aware 9 PM US Eastern deadline computation.

JavaScript numbers are modelled as `Int`/`Nat` (all quantities involved are
integral in the source) or `ℚ` where real division occurs; fallible paths
return `Option`; the external backend and the host timezone database are
modelled explicitly where noted.
-/

/-! ## ShaderFireworks: the fixed-capacity explosion buffer

From `src/components/ShaderFireworks.tsx`.  An `Explosion` holds the THREE
objects (identified here by `pointsId`), its age and its total duration.
The component state is the `explosionsRef.current` array (front = oldest),
the set of points objects attached to the render group (`groupRef`), and the
log of points objects whose geometry and material have been disposed. -/

/-- One active explosion (`type Explosion` in ShaderFireworks.tsx): the
`points`/`geometry`/`material` THREE objects are identified by `pointsId`;
`age` and `duration` are seconds. -/
structure Explosion where
  pointsId : Nat
  age : ℚ
  duration : ℚ
deriving DecidableEq, Repr

/-- The mutable component state of `ShaderFireworks`: the active explosion
list (front = oldest, as in the JS array), the ids of points objects
currently attached to the render group, and the ids whose geometry and
material have been disposed. -/
structure FireworksState where
  explosions : List Explosion
  group : List Nat
  disposed : List Nat
  nextId : Nat
deriving DecidableEq, Repr

/-- Initial state: no explosions, empty render group. -/
def fwInit : FireworksState := ⟨[], [], [], 0⟩

/-- The capacity-eviction step at the top of `spawn` (ShaderFireworks.tsx
lines 268-277): if the buffer is at (or beyond) capacity, `shift()` the
oldest entry off the front, remove its points object from the group and
dispose its geometry and material. -/
def spawnEvict (maxExplosions : Nat) (s : FireworksState) : FireworksState :=
  if maxExplosions ≤ s.explosions.length then
    match s.explosions with
    | [] => s
    | old :: rest =>
      { s with
          explosions := rest,
          group := s.group.filter (fun pid => decide (pid ≠ old.pointsId)),
          disposed := s.disposed ++ [old.pointsId] }
  else s

/-- `spawn` (ShaderFireworks.tsx lines 255-358): evict if at capacity, then
build the new points object, add it to the render group and push the new
explosion (age 0) onto the back of the active list.  The geometry contents
and randomized visual parameters do not affect the buffer discipline and are
not modelled; `spawn` never throws. -/
def spawn (maxExplosions : Nat) (duration : ℚ) (s : FireworksState) :
    FireworksState :=
  let s1 := spawnEvict maxExplosions s
  { s1 with
      explosions := s1.explosions ++ [⟨s1.nextId, 0, duration⟩],
      group := s1.group ++ [s1.nextId],
      nextId := s1.nextId + 1 }

/-- Normalized progress of an explosion: `Math.min(1, ex.age / ex.duration)`
(ShaderFireworks.tsx line 371); this is the value written to the
`uProgress` uniform. -/
def progress (e : Explosion) : ℚ := min 1 (e.age / e.duration)

/-- One explosion aged by the frame's elapsed time (`ex.age += delta`). -/
def advanceExplosion (delta : ℚ) (e : Explosion) : Explosion :=
  { e with age := e.age + delta }

/-- All active explosions after aging by `delta`. -/
def agedExplosions (delta : ℚ) (s : FireworksState) : List Explosion :=
  s.explosions.map (advanceExplosion delta)

/-- The explosions removed this frame: those whose progress reached 1
(`if (t >= 1)` in ShaderFireworks.tsx line 374). -/
def removedExplosions (delta : ℚ) (s : FireworksState) : List Explosion :=
  (agedExplosions delta s).filter (fun e => decide (1 ≤ progress e))

/-- The explosions kept this frame. -/
def keptExplosions (delta : ℚ) (s : FireworksState) : List Explosion :=
  (agedExplosions delta s).filter (fun e => decide (progress e < 1))

/-- The `useFrame` callback (ShaderFireworks.tsx lines 362-381).  The JS loop
walks the array backwards, ages each entry, writes `uProgress`, and splices
out finished entries; since each index is processed exactly once and splicing
at `i` while iterating downwards leaves smaller indices untouched, the net
effect on the list is age-everything then filter, preserving the order of the
remainder.  Removed entries are detached from the group and disposed. -/
def advanceFrame (delta : ℚ) (s : FireworksState) : FireworksState :=
  { s with
      explosions := keptExplosions delta s,
      group := s.group.filter
        (fun pid =>
          decide (pid ∉ (removedExplosions delta s).map Explosion.pointsId)),
      disposed := s.disposed ++ (removedExplosions delta s).map Explosion.pointsId }

/-- An effect-buffer operation: a `spawn` call or one render-frame advance. -/
inductive FwOp where
  | spawnFirework (duration : ℚ)
  | frame (delta : ℚ)
deriving DecidableEq, Repr

/-- Apply one operation to the component state. -/
def fwStep (maxExplosions : Nat) (s : FireworksState) : FwOp → FireworksState
  | .spawnFirework d => spawn maxExplosions d s
  | .frame delta => advanceFrame delta s

/-- Run a sequence of operations. -/
def fwRun (maxExplosions : Nat) (ops : List FwOp) (s : FireworksState) :
    FireworksState :=
  ops.foldl (fwStep maxExplosions) s

/-- State invariant of the fireworks buffer: the active count is within
capacity and every live points id is below the id counter. -/
def FwInv (maxExplosions : Nat) (s : FireworksState) : Prop :=
  s.explosions.length ≤ maxExplosions ∧
    ∀ e ∈ s.explosions, e.pointsId < s.nextId

theorem fwInv_init (maxExplosions : Nat) : FwInv maxExplosions fwInit := by
  constructor
  · simp [fwInit]
  · intro e he
    simp [fwInit] at he

/-- Computation rule for `spawn` when the buffer holds a front entry and is
at (or beyond) capacity. -/
theorem spawn_cons_full (maxExplosions : Nat) (d : ℚ) (old : Explosion)
    (rest : List Explosion) (grp disp : List Nat) (nid : Nat)
    (hfull : maxExplosions ≤ rest.length + 1) :
    spawn maxExplosions d ⟨old :: rest, grp, disp, nid⟩ =
      ⟨rest ++ [⟨nid, 0, d⟩],
       (grp.filter (fun pid => decide (pid ≠ old.pointsId))) ++ [nid],
       disp ++ [old.pointsId], nid + 1⟩ := by
  unfold spawn spawnEvict
  rw [if_pos (by simpa using hfull)]

/-- Computation rule for `spawn` when the buffer is below capacity. -/
theorem spawn_not_full (maxExplosions : Nat) (d : ℚ) (s : FireworksState)
    (h : s.explosions.length < maxExplosions) :
    spawn maxExplosions d s =
      ⟨s.explosions ++ [⟨s.nextId, 0, d⟩], s.group ++ [s.nextId],
       s.disposed, s.nextId + 1⟩ := by
  unfold spawn spawnEvict
  rw [if_neg (by omega)]

theorem fwInv_spawn (maxExplosions : Nat) (hmax : 1 ≤ maxExplosions)
    (d : ℚ) (s : FireworksState) (h : FwInv maxExplosions s) :
    FwInv maxExplosions (spawn maxExplosions d s) := by
  obtain ⟨hlen, hid⟩ := h
  by_cases hfull : maxExplosions ≤ s.explosions.length
  · obtain ⟨exps, grp, disp, nid⟩ := s
    cases exps with
    | nil =>
      exfalso
      simp at hfull
      omega
    | cons old rest =>
      simp only [List.length_cons] at hfull
      rw [spawn_cons_full maxExplosions d old rest grp disp nid hfull]
      simp only [FwInv, List.length_append, List.length_cons] at hlen hid ⊢
      constructor
      · simp only [List.length_nil]
        omega
      · intro e he
        simp only [List.mem_append, List.mem_singleton] at he
        rcases he with he | he
        · have := hid e (List.mem_cons_of_mem _ he)
          omega
        · subst he
          simp
  · rw [spawn_not_full maxExplosions d s (by omega)]
    constructor
    · simp only [List.length_append, List.length_singleton]
      omega
    · intro e he
      simp only [List.mem_append, List.mem_singleton] at he
      rcases he with he | he
      · exact Nat.lt_succ_of_lt (hid e he)
      · subst he
        simp

theorem fwInv_frame (maxExplosions : Nat) (delta : ℚ) (s : FireworksState)
    (h : FwInv maxExplosions s) :
    FwInv maxExplosions (advanceFrame delta s) := by
  obtain ⟨hlen, hid⟩ := h
  constructor
  · calc (advanceFrame delta s).explosions.length
        ≤ (agedExplosions delta s).length :=
          List.Sublist.length_le (List.filter_sublist _)
      _ = s.explosions.length := by simp [agedExplosions]
      _ ≤ maxExplosions := hlen
  · intro e he
    have he' : e ∈ agedExplosions delta s :=
      List.mem_of_mem_filter he
    simp only [agedExplosions, List.mem_map] at he'
    obtain ⟨e0, he0, rfl⟩ := he'
    exact hid e0 he0

theorem fwInv_run (maxExplosions : Nat) (hmax : 1 ≤ maxExplosions)
    (ops : List FwOp) (s : FireworksState) (h : FwInv maxExplosions s) :
    FwInv maxExplosions (fwRun maxExplosions ops s) := by
  induction ops generalizing s with
  | nil => exact h
  | cons op rest ih =>
    cases op with
    | spawnFirework d =>
      exact ih _ (fwInv_spawn maxExplosions hmax d s h)
    | frame delta =>
      exact ih _ (fwInv_frame maxExplosions delta s h)

/-- At capacity, `spawn` evicts the front entry: it is removed from the
render group, its geometry and material are disposed, the new explosion is
appended, and the active count stays at capacity. -/
theorem spawn_at_capacity (maxExplosions : Nat) (hmax : 1 ≤ maxExplosions)
    (d : ℚ) (s : FireworksState) (hInv : FwInv maxExplosions s)
    (hfull : maxExplosions ≤ s.explosions.length) :
    ∃ old rest, s.explosions = old :: rest ∧
      (spawn maxExplosions d s).explosions
        = rest ++ [⟨s.nextId, 0, d⟩] ∧
      old.pointsId ∈ (spawn maxExplosions d s).disposed ∧
      old.pointsId ∉ (spawn maxExplosions d s).group ∧
      (spawn maxExplosions d s).explosions.length = maxExplosions := by
  obtain ⟨hlen, hid⟩ := hInv
  obtain ⟨exps, grp, disp, nid⟩ := s
  cases exps with
  | nil =>
    exfalso
    simp at hfull
    omega
  | cons old rest =>
    refine ⟨old, rest, rfl, ?_⟩
    have hidold : old.pointsId < nid := hid old (by simp)
    simp only [List.length_cons] at hfull hlen
    rw [spawn_cons_full maxExplosions d old rest grp disp nid hfull]
    refine ⟨rfl, ?_, ?_, ?_⟩
    · simp
    · intro hmem
      simp only [List.mem_append, List.mem_filter, List.mem_singleton] at hmem
      rcases hmem with ⟨_, hdec⟩ | hmem
      · simp at hdec
      · omega
    · simp only [List.length_append, List.length_singleton]
      omega

/-- Claim C1: for every sequence of spawn and per-frame-advance operations on
the shader-fireworks effect buffer (capacity `maxExplosions`, default 24,
here any capacity of at least 1), the number of active explosions never
exceeds the capacity; and when `spawn` is called with the buffer at capacity,
the oldest (front) entry is removed from the render group and its geometry
and material disposed before the new explosion is admitted (the spawn is
admitted silently: the state transition is total, no error path exists). -/
theorem claim_C1_capacity_invariant_and_eviction
    (maxExplosions : Nat) (hmax : 1 ≤ maxExplosions) (ops : List FwOp)
    (d : ℚ) :
    (fwRun maxExplosions ops fwInit).explosions.length ≤ maxExplosions ∧
    (maxExplosions ≤ (fwRun maxExplosions ops fwInit).explosions.length →
      ∃ old rest,
        (fwRun maxExplosions ops fwInit).explosions = old :: rest ∧
        (spawn maxExplosions d (fwRun maxExplosions ops fwInit)).explosions
          = rest ++ [⟨(fwRun maxExplosions ops fwInit).nextId, 0, d⟩] ∧
        old.pointsId ∈ (spawn maxExplosions d (fwRun maxExplosions ops fwInit)).disposed ∧
        old.pointsId ∉ (spawn maxExplosions d (fwRun maxExplosions ops fwInit)).group ∧
        (spawn maxExplosions d (fwRun maxExplosions ops fwInit)).explosions.length
          = maxExplosions) := by
  have hInv := fwInv_run maxExplosions hmax ops fwInit (fwInv_init maxExplosions)
  exact ⟨hInv.1, fun hfull =>
    spawn_at_capacity maxExplosions hmax d _ hInv hfull⟩

set_option maxRecDepth 4000 in
/-- Witness for claim C1 at the default capacity 24: after 30 spawns the
active count is within capacity, the buffer is exactly full, and a further
spawn evicts the front entry. -/
theorem claim_C1_witness :
    (fwRun 24 (List.replicate 30 (FwOp.spawnFirework 1)) fwInit).explosions.length ≤ 24 ∧
    ∃ old rest,
      (fwRun 24 (List.replicate 30 (FwOp.spawnFirework 1)) fwInit).explosions
        = old :: rest ∧
      (spawn 24 2 (fwRun 24 (List.replicate 30 (FwOp.spawnFirework 1)) fwInit)).explosions
        = rest ++ [⟨(fwRun 24 (List.replicate 30 (FwOp.spawnFirework 1)) fwInit).nextId, 0, 2⟩] ∧
      old.pointsId ∈
        (spawn 24 2 (fwRun 24 (List.replicate 30 (FwOp.spawnFirework 1)) fwInit)).disposed ∧
      old.pointsId ∉
        (spawn 24 2 (fwRun 24 (List.replicate 30 (FwOp.spawnFirework 1)) fwInit)).group ∧
      (spawn 24 2 (fwRun 24 (List.replicate 30 (FwOp.spawnFirework 1)) fwInit)).explosions.length
        = 24 := by
  have h := claim_C1_capacity_invariant_and_eviction 24 (by decide)
    (List.replicate 30 (FwOp.spawnFirework 1)) 2
  exact ⟨h.1, h.2 (by decide)⟩

/-- Aging by a non-negative delta does not decrease the clamped progress of
an explosion with positive duration. -/
theorem progress_advance_mono (delta : ℚ) (hdelta : 0 ≤ delta)
    (e : Explosion) (hdur : 0 < e.duration) :
    progress e ≤ progress (advanceExplosion delta e) := by
  unfold progress advanceExplosion
  simp only
  apply min_le_min le_rfl
  apply div_le_div_of_nonneg_right ?_ hdur.le
  linarith

/-- Claim C3: for every duration-based explosion effect, across every
sequence of per-frame advances with non-negative elapsed times, the progress
value `min(1, age/duration)` is monotonically non-decreasing; every explosion
removed by a frame has progress exactly 1 on that frame (the value written to
its `uProgress` uniform before disposal); and a frame's removals keep the
relative order of the remaining active effects unchanged (the kept list is a
sublist of the aged list). -/
theorem claim_C3_progress_monotone_and_ordered_removal
    (s : FireworksState) (delta : ℚ) (hdelta : 0 ≤ delta) :
    (∀ ds : List ℚ, (∀ d ∈ ds, 0 ≤ d) → ∀ e : Explosion, 0 < e.duration →
        progress e ≤ progress (ds.foldl (fun a d => advanceExplosion d a) e)) ∧
    (∀ e ∈ removedExplosions delta s, progress e = 1) ∧
    (advanceFrame delta s).explosions.Sublist (agedExplosions delta s) := by
  refine ⟨?_, ?_, ?_⟩
  · intro ds
    induction ds with
    | nil =>
      intro _ e _
      simp
    | cons d rest ih =>
      intro hds e hdur
      have h1 : progress e ≤ progress (advanceExplosion d e) :=
        progress_advance_mono d (hds d (by simp)) e hdur
      have h2 : progress (advanceExplosion d e) ≤
          progress (rest.foldl (fun a d' => advanceExplosion d' a) (advanceExplosion d e)) :=
        ih (fun d' hd' => hds d' (by simp [hd'])) (advanceExplosion d e) (by simpa [advanceExplosion] using hdur)
      calc progress e ≤ progress (advanceExplosion d e) := h1
        _ ≤ _ := h2
  · intro e he
    unfold removedExplosions at he
    have h1 : 1 ≤ progress e := by
      have := List.of_mem_filter he
      simpa using this
    have h2 : progress e ≤ 1 := min_le_left _ _
    exact le_antisymm h2 h1
  · show (keptExplosions delta s).Sublist (agedExplosions delta s)
    exact List.filter_sublist _

/-- Witness for claim C3: a concrete explosion of duration 2 advanced by one
second does not lose progress, and the single-frame removal discipline holds
on a concrete one-explosion state. -/
theorem claim_C3_witness :
    ((0 : ℚ) ≤ 1) ∧
    progress ⟨0, 0, 2⟩ ≤
      progress ([(1 : ℚ)].foldl (fun a d => advanceExplosion d a) ⟨0, 0, 2⟩) := by
  have h := claim_C3_progress_monotone_and_ordered_removal
    ⟨[⟨0, 0, 2⟩], [0], [], 1⟩ 1 (by norm_num)
  exact ⟨by norm_num, h.1 [1] (by norm_num) ⟨0, 0, 2⟩ (by norm_num)⟩

/-! ## ScrollingNumber: computeForwardPositions

From the `ScrollingNumber` component (`computeForwardPositions`, lines
25-44 of the file).  JS `%` is the truncated remainder, modelled by
`Int.tmod`; `?? 0` on an out-of-bounds index is `List.getD _ _ 0`. -/

/-- The JS remainder operator `%` on integers (truncated division,
remainder takes the sign of the dividend). -/
def jsMod (a b : Int) : Int := a.tmod b

/-- `computeForwardPositions` from ScrollingNumber: for each target digit,
roll the wheel forward from its previous position by any requested extra
full turns plus the forward distance to the target digit. -/
def computeForwardPositions
    (prevPositionsFromRight targetDigitsFromRight extraTurnsFromRight : List Int) :
    List Int :=
  (List.range targetDigitsFromRight.length).map (fun i =>
    let prevPos := prevPositionsFromRight.getD i 0
    let prevDigit := jsMod (jsMod prevPos 10 + 10) 10
    let targetDigit := targetDigitsFromRight.getD i 0
    let deltaForward := jsMod (targetDigit - prevDigit + 10) 10
    let extraTurns := extraTurnsFromRight.getD i 0
    prevPos + extraTurns * 10 + deltaForward)

/-- The truncated remainder by 10 lies in the open interval (-10, 10). -/
theorem tmod_ten_bounds (p : Int) : -10 < p.tmod 10 ∧ p.tmod 10 < 10 := by
  constructor
  · rcases le_or_lt 0 p with h | h
    · have := Int.tmod_nonneg 10 h
      omega
    · have h2 : p.tmod 10 = p - 10 * p.tdiv 10 := Int.tmod_def p 10
      have h3 : p.tdiv 10 = -((-p).tdiv 10) := by
        simp [Int.neg_tdiv]
      have h4 : (-p).tdiv 10 = (-p) / 10 := Int.tdiv_eq_ediv (by omega) (by norm_num)
      omega
  · exact Int.tmod_lt_of_pos p (by norm_num)

/-- The JS idiom `((p % 10) + 10) % 10` computes the Euclidean residue. -/
theorem jsMod_digit (p : Int) : jsMod (jsMod p 10 + 10) 10 = p % 10 := by
  unfold jsMod
  have hb := tmod_ten_bounds p
  have h2 : (p.tmod 10 + 10).tmod 10 = (p.tmod 10 + 10) % 10 :=
    Int.tmod_eq_emod (by omega) (by norm_num)
  have h3 : p = 10 * p.tdiv 10 + p.tmod 10 := (Int.tdiv_add_tmod p 10).symm
  rw [h2]
  omega

/-- Value of `computeForwardPositions` at an in-range index. -/
theorem computeForwardPositions_getD (prev targets extras : List Int)
    (i : Nat) (hi : i < targets.length) :
    (computeForwardPositions prev targets extras).getD i 0 =
      prev.getD i 0 + extras.getD i 0 * 10 +
        jsMod (targets.getD i 0 - jsMod (jsMod (prev.getD i 0) 10 + 10) 10 + 10) 10 := by
  unfold computeForwardPositions
  rw [List.getD_eq_getElem _ _ (by simpa using hi)]
  simp

/-- Claim C10: for every input to `computeForwardPositions` whose target
digits lie in `[0,9]` and whose extra-turn counts are non-negative, the
result has the same length as the target-digit list, each output position is
at least the corresponding previous position (digits only roll forward), and
each output position is congruent to its target digit modulo 10. -/
theorem claim_C10_computeForwardPositions_forward_and_congruent
    (prev targets extras : List Int)
    (htargets : ∀ t ∈ targets, 0 ≤ t ∧ t ≤ 9)
    (hextras : ∀ e ∈ extras, 0 ≤ e) :
    (computeForwardPositions prev targets extras).length = targets.length ∧
    ∀ i, i < targets.length →
      prev.getD i 0 ≤ (computeForwardPositions prev targets extras).getD i 0 ∧
      ((computeForwardPositions prev targets extras).getD i 0) % 10
        = targets.getD i 0 % 10 := by
  constructor
  · simp [computeForwardPositions]
  · intro i hi
    rw [computeForwardPositions_getD prev targets extras i hi]
    have htarget : 0 ≤ targets.getD i 0 ∧ targets.getD i 0 ≤ 9 := by
      have : targets.getD i 0 ∈ targets := by
        rw [List.getD_eq_getElem _ _ hi]
        exact List.getElem_mem hi
      exact htargets _ this
    have hextra : 0 ≤ extras.getD i 0 := by
      by_cases hlt : i < extras.length
      · have : extras.getD i 0 ∈ extras := by
          rw [List.getD_eq_getElem _ _ hlt]
          exact List.getElem_mem hlt
        exact hextras _ this
      · rw [List.getD_eq_default _ _ (by omega)]
    have hdigit := jsMod_digit (prev.getD i 0)
    rw [hdigit]
    have hprevd : 0 ≤ prev.getD i 0 % 10 ∧ prev.getD i 0 % 10 < 10 := by
      constructor
      · exact Int.emod_nonneg _ (by norm_num)
      · exact Int.emod_lt_of_pos _ (by norm_num)
    have hargnn : 0 ≤ targets.getD i 0 - prev.getD i 0 % 10 + 10 := by omega
    have hdelta : jsMod (targets.getD i 0 - prev.getD i 0 % 10 + 10) 10
        = (targets.getD i 0 - prev.getD i 0 % 10 + 10) % 10 := by
      unfold jsMod
      exact Int.tmod_eq_emod hargnn (by norm_num)
    rw [hdelta]
    omega

/-- Witness for claim C10 on a concrete input (including a negative previous
position, exercising the JS truncated remainder): previous positions
`[3, -7]`, target digits `[5, 2]`, extra turns `[1, 0]`. -/
theorem claim_C10_witness :
    ((computeForwardPositions [3, -7] [5, 2] [1, 0]).length = 2) ∧
    ((-7 : Int) ≤ (computeForwardPositions [3, -7] [5, 2] [1, 0]).getD 1 0) ∧
    (((computeForwardPositions [3, -7] [5, 2] [1, 0]).getD 1 0) % 10 = 2) := by
  have h := claim_C10_computeForwardPositions_forward_and_congruent
    [3, -7] [5, 2] [1, 0] (by decide) (by decide)
  have h1 := (h.2 1 (by decide)).1
  have h2 := (h.2 1 (by decide)).2
  refine ⟨h.1, by simpa using h1, by simpa using h2⟩

/-! ## ScrollIndicator: keyboard-driven section index

From the `ScrollIndicator` component.  The component state is the active
section index (`useState(0)`); `sections` holds each section element's
`offsetTop` in document order.  `scrollToSection` issues a programmatic
scroll to the chosen section's top and records the new active index. -/

/-- The `ScrollIndicator` component state: the active section index (a JS
number, so an integer here) and the sections' offset tops. -/
structure ScrollIndicatorState where
  activeSection : Int
  sections : List Int
deriving DecidableEq, Repr

/-- Initial active section: `useState(0)`. -/
def initialActiveSection : Int := 0

/-- `sectionElements[index]?.offsetTop` — the scroll target, when the index
denotes an existing section. -/
def sectionTopAt (secs : List Int) (index : Int) : Option Int :=
  if 0 ≤ index then secs[index.toNat]? else none

/-- `scrollToSection`: scroll the container to the indexed section's top
(when it exists) and set the active index. -/
def scrollToSection (s : ScrollIndicatorState) (index : Int) :
    ScrollIndicatorState × Option Int :=
  ({ s with activeSection := index }, sectionTopAt s.sections index)

/-- The `onKeyDown` handler: ArrowDown moves to
`Math.min(activeSection + 1, sectionElements.length - 1)`, ArrowUp to
`Math.max(activeSection - 1, 0)`; other keys do nothing.  The second
component is the programmatic scroll target, if any. -/
def onKeyDown (key : String) (s : ScrollIndicatorState) :
    ScrollIndicatorState × Option Int :=
  if key = "ArrowDown" then
    scrollToSection s (min (s.activeSection + 1) ((s.sections.length : Int) - 1))
  else if key = "ArrowUp" then
    scrollToSection s (max (s.activeSection - 1) 0)
  else (s, none)

/-- What `scrollToSection` does for an in-range index: sets the active index
and scrolls to that section's top. -/
theorem scrollToSection_spec (s : ScrollIndicatorState) (index : Int)
    (h0 : 0 ≤ index) (h1 : index.toNat < s.sections.length) :
    (scrollToSection s index).1.activeSection = index ∧
    (scrollToSection s index).2 = s.sections[index.toNat]? ∧
    ((scrollToSection s index).2).isSome := by
  refine ⟨rfl, ?_, ?_⟩
  · show sectionTopAt s.sections index = _
    unfold sectionTopAt
    rw [if_pos h0]
  · show (sectionTopAt s.sections index).isSome = true
    unfold sectionTopAt
    rw [if_pos h0, List.getElem?_eq_getElem h1]
    rfl

/-- Claim C8: with `N ≥ 1` sections the active index starts at 0; ArrowDown
sets it to `min(current + 1, N - 1)` and ArrowUp to `max(current - 1, 0)`,
so from any in-range index the new index stays clamped to `[0, N-1]`; and in
both cases the viewport is programmatically scrolled to the selected
section's top. -/
theorem claim_C8_scroll_indicator_clamped_navigation
    (s : ScrollIndicatorState) (hN : 1 ≤ s.sections.length)
    (hlo : 0 ≤ s.activeSection)
    (hhi : s.activeSection ≤ (s.sections.length : Int) - 1) :
    initialActiveSection = 0 ∧
    ((onKeyDown "ArrowDown" s).1.activeSection
        = min (s.activeSection + 1) ((s.sections.length : Int) - 1) ∧
      0 ≤ (onKeyDown "ArrowDown" s).1.activeSection ∧
      (onKeyDown "ArrowDown" s).1.activeSection ≤ (s.sections.length : Int) - 1 ∧
      (onKeyDown "ArrowDown" s).2
        = s.sections[(onKeyDown "ArrowDown" s).1.activeSection.toNat]? ∧
      ((onKeyDown "ArrowDown" s).2).isSome) ∧
    ((onKeyDown "ArrowUp" s).1.activeSection
        = max (s.activeSection - 1) 0 ∧
      0 ≤ (onKeyDown "ArrowUp" s).1.activeSection ∧
      (onKeyDown "ArrowUp" s).1.activeSection ≤ (s.sections.length : Int) - 1 ∧
      (onKeyDown "ArrowUp" s).2
        = s.sections[(onKeyDown "ArrowUp" s).1.activeSection.toNat]? ∧
      ((onKeyDown "ArrowUp" s).2).isSome) := by
  have hdown : onKeyDown "ArrowDown" s
      = scrollToSection s (min (s.activeSection + 1) ((s.sections.length : Int) - 1)) := by
    unfold onKeyDown
    rfl
  have hup : onKeyDown "ArrowUp" s
      = scrollToSection s (max (s.activeSection - 1) 0) := by
    unfold onKeyDown
    rfl
  refine ⟨rfl, ?_, ?_⟩
  · rw [hdown]
    have hidx0 : 0 ≤ min (s.activeSection + 1) ((s.sections.length : Int) - 1) := by
      omega
    have hidx1 : (min (s.activeSection + 1) ((s.sections.length : Int) - 1)).toNat
        < s.sections.length := by
      omega
    have hspec := scrollToSection_spec s _ hidx0 hidx1
    refine ⟨hspec.1, ?_, ?_, ?_, hspec.2.2⟩
    · rw [hspec.1]
      omega
    · rw [hspec.1]
      omega
    · rw [hspec.1]
      exact hspec.2.1
  · rw [hup]
    have hidx0 : 0 ≤ max (s.activeSection - 1) 0 := by
      omega
    have hidx1 : (max (s.activeSection - 1) 0).toNat < s.sections.length := by
      omega
    have hspec := scrollToSection_spec s _ hidx0 hidx1
    refine ⟨hspec.1, ?_, ?_, ?_, hspec.2.2⟩
    · rw [hspec.1]
      omega
    · rw [hspec.1]
      omega
    · rw [hspec.1]
      exact hspec.2.1

/-- Witness for claim C8 on a concrete three-section state with the middle
section active: ArrowDown selects the last section and scrolls to its top. -/
theorem claim_C8_witness :
    initialActiveSection = 0 ∧
    (onKeyDown "ArrowDown" ⟨1, [0, 900, 1800]⟩).1.activeSection
      = min ((1 : Int) + 1) ((([0, 900, 1800] : List Int).length : Int) - 1) ∧
    ((onKeyDown "ArrowDown" ⟨1, [0, 900, 1800]⟩).2).isSome := by
  have h := claim_C8_scroll_indicator_clamped_navigation
    ⟨1, [0, 900, 1800]⟩ (by decide) (by decide) (by decide)
  exact ⟨h.1, h.2.1.1, h.2.1.2.2.2.2⟩

/-! ## DramaticCountdown: countdown parts and pressure

From `DramaticCountdown` (second half of `src/components/confetti.tsx`):
`getCountdownParts` and the `pressure` memo. -/

/-- The displayed countdown fields (`getCountdownParts`). -/
structure CountdownParts where
  totalSeconds : Int
  days : Int
  hours : Int
  minutes : Int
  seconds : Int
deriving DecidableEq, Repr

/-- `getCountdownParts`: `totalSeconds = Math.max(0, Math.floor(ms/1000))`
then day/hour/minute/second decomposition.  `Math.floor` of a real quotient
is floor division, i.e. `Int` division by a positive constant. -/
def getCountdownParts (msRemaining : Int) : CountdownParts :=
  let totalSeconds := max 0 (msRemaining / 1000)
  { totalSeconds := totalSeconds
    days := totalSeconds / 86400
    hours := (totalSeconds % 86400) / 3600
    minutes := (totalSeconds % 3600) / 60
    seconds := totalSeconds % 60 }

/-- The `pressure` memo (confetti.tsx lines 193-199): build pressure over the
final 24 hours, `Math.min(1, Math.max(0, 1 - msRemaining / windowMs))` with
`windowMs = 24 * 60 * 60 * 1000`. -/
def pressure (msRemaining : Int) : ℚ :=
  min 1 (max 0 (1 - (msRemaining : ℚ) / (24 * 60 * 60 * 1000)))

/-- Claim C7: the countdown's pressure value always lies in `[0,1]`, is
monotonically non-increasing in the milliseconds remaining, equals 0
whenever more than 24 hours remain, equals 1 whenever at most 0 ms remain;
and the displayed total seconds are clamped to zero once the deadline has
passed. -/
theorem claim_C7_pressure_clamped_monotone :
    (∀ ms : Int, 0 ≤ pressure ms ∧ pressure ms ≤ 1) ∧
    (∀ a b : Int, a ≤ b → pressure b ≤ pressure a) ∧
    (∀ ms : Int, 86400000 < ms → pressure ms = 0) ∧
    (∀ ms : Int, ms ≤ 0 → pressure ms = 1) ∧
    (∀ ms : Int, ms ≤ 0 → (getCountdownParts ms).totalSeconds = 0) := by
  refine ⟨?_, ?_, ?_, ?_, ?_⟩
  · intro ms
    exact ⟨le_min (by norm_num) (le_max_left 0 _), min_le_left _ _⟩
  · intro a b hab
    apply min_le_min le_rfl
    apply max_le_max le_rfl
    have : (a : ℚ) / (24 * 60 * 60 * 1000) ≤ (b : ℚ) / (24 * 60 * 60 * 1000) := by
      apply div_le_div_of_nonneg_right ?_ (by norm_num)
      exact_mod_cast hab
    linarith
  · intro ms hms
    have h1 : (1 : ℚ) - (ms : ℚ) / (24 * 60 * 60 * 1000) ≤ 0 := by
      rw [sub_nonpos, le_div_iff₀ (by norm_num)]
      have : (86400000 : ℚ) < ms := by exact_mod_cast hms
      linarith
    unfold pressure
    rw [max_eq_left h1, min_eq_right (by norm_num)]
  · intro ms hms
    have h1 : (1 : ℚ) ≤ 1 - (ms : ℚ) / (24 * 60 * 60 * 1000) := by
      have hq : (ms : ℚ) ≤ 0 := by exact_mod_cast hms
      have : (ms : ℚ) / (24 * 60 * 60 * 1000) ≤ 0 :=
        div_nonpos_of_nonpos_of_nonneg hq (by norm_num)
      linarith
    unfold pressure
    rw [min_eq_left]
    exact le_trans h1 (le_max_right 0 _)
  · intro ms hms
    unfold getCountdownParts
    simp only
    omega

/-- Witness for claim C7 at concrete instants: one second out the pressure is
between its bounds; 25 hours out it is 0; at the deadline it is 1 and the
displayed seconds are 0; and pressure at 1000 ms is at least pressure at
2000 ms. -/
theorem claim_C7_witness :
    (0 ≤ pressure 1000 ∧ pressure 1000 ≤ 1) ∧
    pressure 2000 ≤ pressure 1000 ∧
    pressure 90000000 = 0 ∧
    pressure 0 = 1 ∧
    (getCountdownParts (-5000)).totalSeconds = 0 := by
  have h := claim_C7_pressure_clamped_monotone
  exact ⟨h.1 1000, h.2.1 1000 2000 (by norm_num), h.2.2.1 90000000 (by norm_num),
    h.2.2.2.1 0 le_rfl, h.2.2.2.2 (-5000) (by norm_num)⟩

/-! ## App.tsx: the goals data layer

The `goals_2025` table (supabase migration) and the three ways the public
page's in-memory `goals` state is populated: the initial load, the realtime
INSERT subscription, and a successful local submission. -/

/-- A full stored row of `public.goals_2025` (from the migration SQL:
id, display_name, title, goal_text, created_at). -/
structure DbGoalRow where
  id : String
  display_name : String
  title : String
  goal_text : String
  created_at : String
deriving DecidableEq, Repr

/-- A goal row as held in client memory: the fields actually present in the
payload that delivered it.  `goal_text` is `none` when the payload did not
carry that column. -/
structure FetchedGoalRow where
  id : String
  display_name : String
  title : String
  created_at : String
  goal_text : Option String
deriving DecidableEq, Repr

/-- The column list of the public goals select (App.tsx line 357), also used
as the returning projection of the submit insert (line 441). -/
def goalsLoadSelect : String := "id,display_name,title,created_at"

/-- Split a character list at commas (the PostgREST column-list syntax). -/
def splitCommaAux : List Char → List Char → List String
  | [], acc => [String.mk acc.reverse]
  | c :: rest, acc =>
    if c = ',' then String.mk acc.reverse :: splitCommaAux rest []
    else splitCommaAux rest (c :: acc)

/-- The column names requested by a select string. -/
def selectColumns (s : String) : List String :=
  splitCommaAux s.toList []

/-- Projection of a stored row to the restricted public column list: the
resulting payload has no `goal_text` column. -/
def projectPublicColumns (r : DbGoalRow) : FetchedGoalRow :=
  ⟨r.id, r.display_name, r.title, r.created_at, none⟩

/-- Modelled from the spec: the realtime collaborator contract
`subscribe(table, event=INSERT) -> stream of inserted rows` — an INSERT
event's `payload.new` is the inserted row, with all of its columns,
including `goal_text`; the client-side type cast does not strip fields. -/
def realtimePayloadNew (r : DbGoalRow) : FetchedGoalRow :=
  ⟨r.id, r.display_name, r.title, r.created_at, some r.goal_text⟩

/-- The initial public load (App.tsx lines 355-359):
`select('id,display_name,title,created_at').order(...).limit(50)` — the
backend projects the requested columns and returns at most 50 rows (the
server-side ordering does not matter to the claims and is left as given). -/
def loadGoals (db : List DbGoalRow) : List FetchedGoalRow :=
  (db.map projectPublicColumns).take 50

/-- The realtime INSERT handler (App.tsx lines 395-404): ignore payloads
without an id (JS truthiness: the empty string is falsy, subsuming a missing
row), drop duplicates already in the list, otherwise prepend and keep the
first 50. -/
def onGoalInsert (row : FetchedGoalRow) (prev : List FetchedGoalRow) :
    List FetchedGoalRow :=
  if row.id = "" then prev
  else if prev.any (fun g => g.id = row.id) then prev
  else (row :: prev).take 50

/-- The `setGoals` update of a successful submission (App.tsx lines
451-454): `[data, ...prev].slice(0, 50)`. -/
def prependGoal (row : FetchedGoalRow) (prev : List FetchedGoalRow) :
    List FetchedGoalRow :=
  (row :: prev).take 50

/-- Result of one invocation of the goal-submission handler: how many
backend inserts were issued, the updated in-memory goals list, and the
inline error/success messages. -/
structure SubmitResult where
  insertsIssued : Nat
  goals : List FetchedGoalRow
  goalSubmitError : Option String
  goalSubmitSuccess : Option String
deriving DecidableEq, Repr

/-- The JS `String.prototype.trim()`: strip leading and trailing
whitespace.  Implemented over the character list so that it evaluates by
kernel reduction. -/
def jsTrim (s : String) : String :=
  String.mk
    (((s.toList.dropWhile Char.isWhitespace).reverse.dropWhile
        Char.isWhitespace).reverse)

/-- `handleGoalSubmit` (App.tsx lines 419-462).  If the backend client is
not configured, set a configuration error and stop.  Trim the three fields;
if any is empty, set the inline validation error and stop without any
network call.  Otherwise issue exactly one insert; on backend error set the
inline error (message formatting not modelled); on success the returned row
(the restricted returning projection of the stored row) is prepended and the
list truncated to 50. -/
def handleGoalSubmit (sbConfigured : Bool)
    (displayName goalTitle goalText : String)
    (insertResult : Except String DbGoalRow)
    (prev : List FetchedGoalRow) : SubmitResult :=
  if !sbConfigured then
    ⟨0, prev, some "Supabase is not configured. Missing env vars.", none⟩
  else
    let dn := jsTrim displayName
    let title := jsTrim goalTitle
    let text := jsTrim goalText
    if dn = "" ∨ title = "" ∨ text = "" then
      ⟨0, prev, some "Please fill out your name, a short title, and your goal.", none⟩
    else
      match insertResult with
      | .error msg => ⟨1, prev, some msg, none⟩
      | .ok row =>
        ⟨1, prependGoal (projectPublicColumns row) prev, none,
          some "Locked in. Greg will read it aloud in Denver."⟩

/-- Claim C4 counterexample: a realtime INSERT payload carries the full
inserted row, so the row stored in the public goals list contains the
`goal_text` field — contradicting the claim that rows held in the public
list never contain it. -/
theorem claim_C4_counterexample :
    ∃ g ∈ onGoalInsert
        (realtimePayloadNew ⟨"g1", "ana", "run", "secret text", "2025-12-31"⟩) [],
      g.goal_text ≠ none := by
  refine ⟨⟨"g1", "ana", "run", "2025-12-31", some "secret text"⟩, ?_, by simp⟩
  unfold onGoalInsert realtimePayloadNew
  simp

/-- Claim C4 (amended): every select that populates the public goals list
requests only the restricted column projection (no `goal_text`), and rows
obtained through that projection — the initial load and the returning
projection of a submission — never contain `goal_text`; rows added by the
realtime INSERT subscription, however, are full inserted rows and do carry
`goal_text`. -/
theorem claim_C4_restricted_projection_except_realtime :
    (goalsLoadSelect = "id,display_name,title,created_at" ∧
      selectColumns goalsLoadSelect = ["id", "display_name", "title", "created_at"] ∧
      "goal_text" ∉ selectColumns goalsLoadSelect) ∧
    (∀ db : List DbGoalRow, ∀ g ∈ loadGoals db, g.goal_text = none) ∧
    (∀ r : DbGoalRow, (projectPublicColumns r).goal_text = none) ∧
    (∀ r : DbGoalRow, ∀ prev : List FetchedGoalRow,
      ∀ g ∈ onGoalInsert (realtimePayloadNew r) prev,
        g ∈ prev ∨ g.goal_text = some r.goal_text) := by
  refine ⟨⟨rfl, by decide, by decide⟩, ?_, fun r => rfl, ?_⟩
  · intro db g hg
    unfold loadGoals at hg
    have hg' : g ∈ db.map projectPublicColumns := List.mem_of_mem_take hg
    obtain ⟨r, _, rfl⟩ := List.mem_map.mp hg'
    rfl
  · intro r prev g hg
    unfold onGoalInsert at hg
    by_cases h1 : (realtimePayloadNew r).id = ""
    · rw [if_pos h1] at hg
      exact Or.inl hg
    · rw [if_neg h1] at hg
      by_cases h2 : prev.any (fun g => g.id = (realtimePayloadNew r).id)
      · rw [if_pos h2] at hg
        exact Or.inl hg
      · rw [if_neg h2] at hg
        have := List.mem_of_mem_take hg
        rcases List.mem_cons.mp this with rfl | hmem
        · exact Or.inr rfl
        · exact Or.inl hmem

/-- Witness for claim C4 (amended) on concrete data: a loaded row has no
`goal_text`, and the realtime-added row either was already present or
carries the inserted `goal_text`. -/
theorem claim_C4_witness :
    (∀ g ∈ loadGoals [⟨"g1", "ana", "run", "secret text", "2025-12-31"⟩],
      g.goal_text = none) ∧
    (∀ g ∈ onGoalInsert
        (realtimePayloadNew ⟨"g2", "bo", "read", "more secrets", "2025-12-31"⟩) [],
      g ∈ ([] : List FetchedGoalRow) ∨ g.goal_text = some "more secrets") := by
  have h := claim_C4_restricted_projection_except_realtime
  exact ⟨h.2.1 [⟨"g1", "ana", "run", "secret text", "2025-12-31"⟩],
    h.2.2.2 ⟨"g2", "bo", "read", "more secrets", "2025-12-31"⟩ []⟩

/-- Claim C5 counterexample: when the backend client is not configured
(missing env vars), a submission with all three fields non-empty issues no
insert at all — contradicting the claim that any invocation with non-empty
trimmed fields issues exactly one insert. -/
theorem claim_C5_counterexample :
    (jsTrim "Nora" ≠ "" ∧ jsTrim "Run" ≠ "" ∧ jsTrim "Run a 10K" ≠ "") ∧
    (handleGoalSubmit false "Nora" "Run" "Run a 10K"
        (Except.ok ⟨"g9", "Nora", "Run", "Run a 10K", "2025-12-31"⟩)
        []).insertsIssued ≠ 1 := by
  constructor
  · refine ⟨?_, ?_, ?_⟩ <;> decide
  · decide

/-- Claim C5 (amended): provided the backend client is configured, a
submission whose trimmed display name, title, or goal text is empty is
rejected with an inline error and no insert is issued; with all three
non-empty, exactly one insert is issued and on success the returned row is
prepended to the front of the in-memory goals list (which is truncated to
50).  When the backend client is not configured, no insert is issued either
and a configuration error is shown instead. -/
theorem claim_C5_submission_validation_and_prepend
    (sbConfigured : Bool) (displayName goalTitle goalText : String)
    (insertResult : Except String DbGoalRow) (prev : List FetchedGoalRow) :
    (sbConfigured = true →
      jsTrim displayName = "" ∨ jsTrim goalTitle = "" ∨ jsTrim goalText = "" →
      (handleGoalSubmit sbConfigured displayName goalTitle goalText insertResult prev).insertsIssued = 0 ∧
      (handleGoalSubmit sbConfigured displayName goalTitle goalText insertResult prev).goalSubmitError.isSome ∧
      (handleGoalSubmit sbConfigured displayName goalTitle goalText insertResult prev).goals = prev) ∧
    (sbConfigured = true →
      jsTrim displayName ≠ "" → jsTrim goalTitle ≠ "" → jsTrim goalText ≠ "" →
      (handleGoalSubmit sbConfigured displayName goalTitle goalText insertResult prev).insertsIssued = 1 ∧
      ∀ row : DbGoalRow, insertResult = Except.ok row →
        (handleGoalSubmit sbConfigured displayName goalTitle goalText insertResult prev).goals
          = prependGoal (projectPublicColumns row) prev ∧
        (handleGoalSubmit sbConfigured displayName goalTitle goalText insertResult prev).goals.head?
          = some (projectPublicColumns row)) ∧
    (sbConfigured = false →
      (handleGoalSubmit sbConfigured displayName goalTitle goalText insertResult prev).insertsIssued = 0 ∧
      (handleGoalSubmit sbConfigured displayName goalTitle goalText insertResult prev).goalSubmitError.isSome) := by
  refine ⟨?_, ?_, ?_⟩
  · rintro rfl hempty
    unfold handleGoalSubmit
    rw [if_neg (by simp), if_pos hempty]
    exact ⟨rfl, rfl, rfl⟩
  · rintro rfl h1 h2 h3
    unfold handleGoalSubmit
    rw [if_neg (by simp), if_neg (by tauto)]
    cases insertResult with
    | error msg => exact ⟨rfl, by intro row h; cases h⟩
    | ok row =>
      refine ⟨rfl, ?_⟩
      rintro row' h
      cases h
      exact ⟨rfl, by unfold prependGoal; simp⟩
  · rintro rfl
    unfold handleGoalSubmit
    rw [if_pos (by simp)]
    exact ⟨rfl, rfl⟩

/-- Witness for claim C5 (amended) at concrete inputs: an all-blank
submission issues no insert; a filled submission issues exactly one and
prepends the returned row; an unconfigured submission issues none. -/
theorem claim_C5_witness :
    (handleGoalSubmit true "  " "Run" "text"
        (Except.ok ⟨"g9", "Nora", "Run", "Run a 10K", "2025-12-31"⟩) []).insertsIssued = 0 ∧
    (handleGoalSubmit true "Nora" "Run" "Run a 10K"
        (Except.ok ⟨"g9", "Nora", "Run", "Run a 10K", "2025-12-31"⟩) []).insertsIssued = 1 ∧
    (handleGoalSubmit true "Nora" "Run" "Run a 10K"
        (Except.ok ⟨"g9", "Nora", "Run", "Run a 10K", "2025-12-31"⟩) []).goals.head?
      = some (projectPublicColumns ⟨"g9", "Nora", "Run", "Run a 10K", "2025-12-31"⟩) ∧
    (handleGoalSubmit false "Nora" "Run" "Run a 10K"
        (Except.ok ⟨"g9", "Nora", "Run", "Run a 10K", "2025-12-31"⟩) []).insertsIssued = 0 := by
  have h := claim_C5_submission_validation_and_prepend true "  " "Run" "text"
    (Except.ok ⟨"g9", "Nora", "Run", "Run a 10K", "2025-12-31"⟩) []
  have h2 := claim_C5_submission_validation_and_prepend true "Nora" "Run" "Run a 10K"
    (Except.ok ⟨"g9", "Nora", "Run", "Run a 10K", "2025-12-31"⟩) []
  have h3 := claim_C5_submission_validation_and_prepend false "Nora" "Run" "Run a 10K"
    (Except.ok ⟨"g9", "Nora", "Run", "Run a 10K", "2025-12-31"⟩) []
  have hfilled := h2.2.1 rfl (by decide) (by decide) (by decide)
  have hrow := hfilled.2 ⟨"g9", "Nora", "Run", "Run a 10K", "2025-12-31"⟩ rfl
  exact ⟨(h.1 rfl (Or.inl (by decide))).1, hfilled.1, hrow.2, (h3.2.2 rfl).1⟩

/-- One way the public in-memory goals list changes: an initial load, a
realtime INSERT event, or a successful local submission. -/
inductive GoalsOp where
  | load (db : List DbGoalRow)
  | realtimeInsert (row : DbGoalRow)
  | submitOk (row : DbGoalRow)
deriving DecidableEq, Repr

/-- Apply one goals-list update. -/
def goalsStep (goals : List FetchedGoalRow) : GoalsOp → List FetchedGoalRow
  | .load db => loadGoals db
  | .realtimeInsert r => onGoalInsert (realtimePayloadNew r) goals
  | .submitOk r => prependGoal (projectPublicColumns r) goals

/-- Run a sequence of goals-list updates from the initial empty list. -/
def goalsRun (ops : List GoalsOp) (goals : List FetchedGoalRow) :
    List FetchedGoalRow :=
  ops.foldl goalsStep goals

/-- Claim C9: the in-memory public goals list never holds more than 50
entries — the initial load fetches at most 50 rows and every prepend
(realtime INSERT or successful submission) truncates to the first 50. -/
theorem claim_C9_goals_list_bounded_by_50 (ops : List GoalsOp) :
    (goalsRun ops []).length ≤ 50 := by
  have hstep : ∀ goals op, (goalsStep goals op).length ≤ max goals.length 50 := by
    intro goals op
    cases op with
    | load db =>
      simp only [goalsStep, loadGoals]
      calc ((db.map projectPublicColumns).take 50).length ≤ 50 := by
            simpa using List.length_take_le 50 _
        _ ≤ max goals.length 50 := le_max_right _ _
    | realtimeInsert r =>
      simp only [goalsStep, onGoalInsert]
      by_cases h1 : (realtimePayloadNew r).id = ""
      · rw [if_pos h1]
        exact le_max_left _ _
      · rw [if_neg h1]
        by_cases h2 : goals.any (fun g => g.id = (realtimePayloadNew r).id)
        · rw [if_pos h2]
          exact le_max_left _ _
        · rw [if_neg h2]
          calc (((realtimePayloadNew r) :: goals).take 50).length ≤ 50 := by
                simpa using List.length_take_le 50 _
            _ ≤ max goals.length 50 := le_max_right _ _
    | submitOk r =>
      simp only [goalsStep, prependGoal]
      calc ((projectPublicColumns r :: goals).take 50).length ≤ 50 := by
            simpa using List.length_take_le 50 _
        _ ≤ max goals.length 50 := le_max_right _ _
  suffices h : ∀ goals : List FetchedGoalRow, goals.length ≤ 50 →
      (goalsRun ops goals).length ≤ 50 by
    exact h [] (by simp)
  induction ops with
  | nil =>
    intro goals hg
    simpa [goalsRun] using hg
  | cons op rest ih =>
    intro goals hg
    have h1 : (goalsStep goals op).length ≤ 50 := by
      have := hstep goals op
      omega
    simpa [goalsRun] using ih (goalsStep goals op) h1

/-! ## Civil calendar arithmetic

Supporting model for the countdown deadline computation in `src/App.tsx`.
`getZonedDateParts` delegates to the host's `Intl.DateTimeFormat` with the
`America/New_York` timezone, and `Date.UTC` performs proleptic Gregorian
calendar arithmetic; both are host facilities, embedded here as executable
civil-calendar functions on milliseconds since the Unix epoch
(1970-01-01T00:00:00Z).  The supported domain is instants at or after the
epoch. -/

/-- Gregorian leap-year rule. -/
def isLeap (y : Nat) : Bool :=
  y % 4 == 0 && (y % 100 != 0 || y % 400 == 0)

/-- Days in a civil year. -/
def daysInYear (y : Nat) : Nat := if isLeap y then 366 else 365

/-- The month lengths of a year, January first. -/
def monthLengths (leap : Bool) : List Nat :=
  [31, if leap then 29 else 28, 31, 30, 31, 30, 31, 31, 30, 31, 30, 31]

/-- Days strictly before month `m` (1-based) in a year. -/
def daysBeforeMonth (leap : Bool) (m : Nat) : Nat :=
  ((monthLengths leap).take (m - 1)).sum

/-- Total days of the `k` consecutive years starting at year `y`. -/
def daysInYearsFrom (y : Nat) : Nat → Nat
  | 0 => 0
  | k + 1 => daysInYearsFrom y k + daysInYear (y + k)

/-- Days from the epoch day 1970-01-01 to 1 January of year `y`. -/
def daysFromYear (y : Nat) : Nat := daysInYearsFrom 1970 (y - 1970)

/-- Epoch day number of the civil date `y-m-d` (for `y ≥ 1970`). -/
def daysSinceEpoch (y m d : Nat) : Nat :=
  daysFromYear y + daysBeforeMonth (isLeap y) m + (d - 1)

/-- Strip whole years off a day count: `findYear fuel y n` returns the year
reached from year `y` after consuming `n` days, together with the remaining
day-of-year.  The fuel only needs to be at least the number of years
consumed; `n` itself always suffices. -/
def findYear : Nat → Nat → Nat → Nat × Nat
  | 0, y, n => (y, n)
  | fuel + 1, y, n =>
    if n < daysInYear y then (y, n)
    else findYear fuel (y + 1) (n - daysInYear y)

/-- Strip whole months off a day-of-year: returns the 1-based month index
and the remaining 0-based day-of-month. -/
def splitMonth : List Nat → Nat → Nat × Nat
  | [], doy => (1, doy)
  | len :: rest, doy =>
    if doy < len then (1, doy)
    else
      let md := splitMonth rest (doy - len)
      (md.1 + 1, md.2)

/-- Civil date `(year, month, day)` of an epoch day number. -/
def dayToCivil (n : Nat) : Nat × Nat × Nat :=
  let yr := findYear n 1970 n
  let md := splitMonth (monthLengths (isLeap yr.1)) yr.2
  (yr.1, md.1, md.2 + 1)

theorem daysInYear_pos (y : Nat) : 0 < daysInYear y := by
  unfold daysInYear
  split <;> omega

theorem daysInYear_ge (y : Nat) : 365 ≤ daysInYear y := by
  unfold daysInYear
  split <;> omega

theorem daysInYear_le (y : Nat) : daysInYear y ≤ 366 := by
  unfold daysInYear
  split <;> omega

theorem monthLengths_sum (leap : Bool) :
    (monthLengths leap).sum = if leap then 366 else 365 := by
  cases leap <;> decide

theorem daysInYear_eq_monthLengths_sum (y : Nat) :
    daysInYear y = (monthLengths (isLeap y)).sum := by
  rw [monthLengths_sum]
  unfold daysInYear
  rfl

theorem daysInYearsFrom_succ_left (y k : Nat) :
    daysInYearsFrom y (k + 1) = daysInYear y + daysInYearsFrom (y + 1) k := by
  induction k with
  | zero => simp [daysInYearsFrom]
  | succ k ih =>
    have h1 : daysInYearsFrom y (k + 1 + 1)
        = daysInYearsFrom y (k + 1) + daysInYear (y + (k + 1)) := rfl
    have h2 : daysInYearsFrom (y + 1) (k + 1)
        = daysInYearsFrom (y + 1) k + daysInYear (y + 1 + k) := rfl
    rw [h1, ih, h2]
    have : y + (k + 1) = y + 1 + k := by omega
    rw [this]
    omega

/-- `findYear` produces a year at or after its base, a day-of-year within
that year, and a correct decomposition of the input day count. -/
theorem findYear_spec : ∀ fuel y n, n ≤ fuel →
    y ≤ (findYear fuel y n).1 ∧
    (findYear fuel y n).2 < daysInYear (findYear fuel y n).1 ∧
    daysInYearsFrom y ((findYear fuel y n).1 - y) + (findYear fuel y n).2 = n := by
  intro fuel
  induction fuel with
  | zero =>
    intro y n hn
    have : n = 0 := by omega
    subst this
    refine ⟨le_rfl, ?_, ?_⟩
    · simpa [findYear] using daysInYear_pos y
    · simp [findYear, daysInYearsFrom]
  | succ fuel ih =>
    intro y n hn
    by_cases h : n < daysInYear y
    · simp only [findYear, if_pos h]
      refine ⟨le_rfl, h, ?_⟩
      simp [daysInYearsFrom]
    · simp only [findYear, if_neg h]
      have hdy := daysInYear_pos y
      have hrec := ih (y + 1) (n - daysInYear y) (by omega)
      refine ⟨by omega, hrec.2.1, ?_⟩
      have hy' : y ≤ (findYear fuel (y + 1) (n - daysInYear y)).1 := by
        have := hrec.1
        omega
      have hk : (findYear fuel (y + 1) (n - daysInYear y)).1 - y
          = ((findYear fuel (y + 1) (n - daysInYear y)).1 - (y + 1)) + 1 := by
        have := hrec.1
        omega
      rw [hk, daysInYearsFrom_succ_left]
      have := hrec.2.2
      omega

/-- `findYear` inverts the year decomposition: consuming exactly the days of
`k` whole years plus a valid day-of-year lands on year `y + k`. -/
theorem findYear_eq : ∀ k fuel y doy,
    daysInYearsFrom y k + doy ≤ fuel → doy < daysInYear (y + k) →
    findYear fuel y (daysInYearsFrom y k + doy) = (y + k, doy) := by
  intro k
  induction k with
  | zero =>
    intro fuel y doy hfuel hdoy
    simp only [daysInYearsFrom, Nat.zero_add, Nat.add_zero] at hfuel hdoy ⊢
    cases fuel with
    | zero =>
      have : doy = 0 := by omega
      subst this
      rfl
    | succ fuel =>
      simp only [findYear, if_pos hdoy]
  | succ k ih =>
    intro fuel y doy hfuel hdoy
    rw [daysInYearsFrom_succ_left] at hfuel ⊢
    have hdy := daysInYear_pos y
    cases fuel with
    | zero => omega
    | succ fuel =>
      have hnotlt : ¬(daysInYear y + daysInYearsFrom (y + 1) k + doy < daysInYear y) := by
        omega
      simp only [findYear]
      rw [if_neg (by omega)]
      have harg : daysInYear y + daysInYearsFrom (y + 1) k + doy - daysInYear y
          = daysInYearsFrom (y + 1) k + doy := by omega
      rw [harg]
      have hy : y + (k + 1) = (y + 1) + k := by omega
      rw [hy] at hdoy ⊢
      exact ih fuel (y + 1) doy (by omega) hdoy

set_option maxRecDepth 10000 in
/-- `splitMonth` on a year's month-length table produces a valid month and
day-of-month decomposing the day-of-year (checked exhaustively over both
leap flags and all day-of-year values). -/
theorem splitMonth_spec : ∀ leap : Bool, ∀ doy : Nat, doy < 366 →
    doy < (monthLengths leap).sum →
    1 ≤ (splitMonth (monthLengths leap) doy).1 ∧
    (splitMonth (monthLengths leap) doy).1 ≤ 12 ∧
    (splitMonth (monthLengths leap) doy).2
      < (monthLengths leap).getD ((splitMonth (monthLengths leap) doy).1 - 1) 0 ∧
    ((monthLengths leap).take ((splitMonth (monthLengths leap) doy).1 - 1)).sum
      + (splitMonth (monthLengths leap) doy).2 = doy := by
  decide

set_option maxRecDepth 10000 in
/-- `splitMonth` inverts the month decomposition (checked exhaustively). -/
theorem splitMonth_eq : ∀ leap : Bool, ∀ m : Nat, m < 13 → ∀ d : Nat, d < 32 →
    (1 ≤ m ∧ 1 ≤ d ∧ d ≤ (monthLengths leap).getD (m - 1) 0) →
    splitMonth (monthLengths leap) (((monthLengths leap).take (m - 1)).sum + (d - 1))
      = (m, d - 1) := by
  decide

/-- Every month length is at most 31 (checked exhaustively). -/
theorem monthLengths_le_31 : ∀ leap : Bool, ∀ m : Nat, m < 13 →
    (monthLengths leap).getD m 0 ≤ 31 := by
  decide

/-- A month's span fits inside the year (checked exhaustively). -/
theorem daysBeforeMonth_add_le : ∀ leap : Bool, ∀ m : Nat, m < 13 → 1 ≤ m →
    ((monthLengths leap).take (m - 1)).sum + (monthLengths leap).getD (m - 1) 0
      ≤ (monthLengths leap).sum := by
  decide

/-- The civil date of any epoch day number is valid and maps back to that
day number. -/
theorem dayToCivil_spec (n : Nat) :
    1970 ≤ (dayToCivil n).1 ∧
    1 ≤ (dayToCivil n).2.1 ∧ (dayToCivil n).2.1 ≤ 12 ∧
    1 ≤ (dayToCivil n).2.2 ∧
    (dayToCivil n).2.2
      ≤ (monthLengths (isLeap (dayToCivil n).1)).getD ((dayToCivil n).2.1 - 1) 0 ∧
    daysSinceEpoch (dayToCivil n).1 (dayToCivil n).2.1 (dayToCivil n).2.2 = n := by
  have hfy := findYear_spec n 1970 n le_rfl
  set yr := findYear n 1970 n with hyr
  have hdoy : yr.2 < daysInYear yr.1 := hfy.2.1
  have hdoy366 : yr.2 < 366 := lt_of_lt_of_le hdoy (daysInYear_le yr.1)
  have hdoysum : yr.2 < (monthLengths (isLeap yr.1)).sum := by
    rw [← daysInYear_eq_monthLengths_sum]
    exact hdoy
  have hsm := splitMonth_spec (isLeap yr.1) yr.2 hdoy366 hdoysum
  set md := splitMonth (monthLengths (isLeap yr.1)) yr.2 with hmd
  have hciv : dayToCivil n = (yr.1, md.1, md.2 + 1) := rfl
  rw [hciv]
  dsimp only
  refine ⟨hfy.1, hsm.1, hsm.2.1, by omega, by
    have := hsm.2.2.1
    omega, ?_⟩
  unfold daysSinceEpoch daysFromYear daysBeforeMonth
  have h1 : md.2 + 1 - 1 = md.2 := by omega
  rw [h1]
  have h2 := hsm.2.2.2
  have h3 := hfy.2.2
  have h4 : yr.1 - 1970 = yr.1 - 1970 := rfl
  omega

/-- The epoch day number of a valid civil date maps back to that date. -/
theorem dayToCivil_daysSinceEpoch (y m d : Nat) (hy : 1970 ≤ y)
    (hm1 : 1 ≤ m) (hm2 : m ≤ 12) (hd1 : 1 ≤ d)
    (hd2 : d ≤ (monthLengths (isLeap y)).getD (m - 1) 0) :
    dayToCivil (daysSinceEpoch y m d) = (y, m, d) := by
  have hdoy : daysBeforeMonth (isLeap y) m + (d - 1) < daysInYear y := by
    have h1 := daysBeforeMonth_add_le (isLeap y) m (by omega) hm1
    rw [daysInYear_eq_monthLengths_sum]
    unfold daysBeforeMonth
    omega
  have hn : daysSinceEpoch y m d
      = daysInYearsFrom 1970 (y - 1970) + (daysBeforeMonth (isLeap y) m + (d - 1)) := by
    unfold daysSinceEpoch daysFromYear
    omega
  have hyk : 1970 + (y - 1970) = y := by omega
  have hfe := findYear_eq (y - 1970) (daysSinceEpoch y m d) 1970
    (daysBeforeMonth (isLeap y) m + (d - 1)) (by omega) (by rw [hyk]; exact hdoy)
  rw [← hn, hyk] at hfe
  have hd32 : d < 32 := by
    have := monthLengths_le_31 (isLeap y) (m - 1) (by omega)
    omega
  have hse := splitMonth_eq (isLeap y) m (by omega) d hd32 ⟨hm1, hd1, hd2⟩
  show (let yr := findYear (daysSinceEpoch y m d) 1970 (daysSinceEpoch y m d)
        let md := splitMonth (monthLengths (isLeap yr.1)) yr.2
        (yr.1, md.1, md.2 + 1)) = (y, m, d)
  rw [hfe]
  simp only
  have harg : daysBeforeMonth (isLeap y) m + (d - 1)
      = ((monthLengths (isLeap y)).take (m - 1)).sum + (d - 1) := rfl
  rw [harg, hse]
  simp only
  have hd' : d - 1 + 1 = d := by omega
  rw [hd']

/-- The `DateParts` record of App.tsx (calendar fields are 1-based;
`hour`/`minute`/`second` are the 24-hour local clock reading). -/
structure DateParts where
  year : Nat
  month : Nat
  day : Nat
  hour : Nat
  minute : Nat
  second : Nat
deriving DecidableEq, Repr

/-- Civil decomposition of milliseconds since the epoch (second precision,
as produced by `Intl.DateTimeFormat(...).formatToParts`). -/
def natMsToParts (t : Nat) : DateParts :=
  let ymd := dayToCivil (t / 86400000)
  let rem := t % 86400000
  ⟨ymd.1, ymd.2.1, ymd.2.2, rem / 3600000, rem % 3600000 / 60000, rem % 60000 / 1000⟩

/-- Milliseconds since the epoch of a `DateParts` value — the behaviour of
`Date.UTC(year, month - 1, day, hour, minute, second)` on the supported
domain (`year ≥ 1970`). -/
def partsToMsNat (p : DateParts) : Nat :=
  daysSinceEpoch p.year p.month p.day * 86400000
    + p.hour * 3600000 + p.minute * 60000 + p.second * 1000

/-- Reconstructing an instant from its civil parts floors it to the whole
second (the sub-second remainder is what `formatToParts` discards). -/
theorem partsToMsNat_natMsToParts (t : Nat) :
    partsToMsNat (natMsToParts t) = 1000 * (t / 1000) := by
  have hd := dayToCivil_spec (t / 86400000)
  unfold natMsToParts partsToMsNat
  dsimp only
  rw [hd.2.2.2.2.2]
  omega

/-- Civil parts of the instant built from valid parts. -/
theorem natMsToParts_partsToMsNat (p : DateParts) (hy : 1970 ≤ p.year)
    (hm1 : 1 ≤ p.month) (hm2 : p.month ≤ 12) (hd1 : 1 ≤ p.day)
    (hd2 : p.day ≤ (monthLengths (isLeap p.year)).getD (p.month - 1) 0)
    (hh : p.hour < 24) (hmin : p.minute < 60) (hs : p.second < 60) :
    natMsToParts (partsToMsNat p) = p := by
  obtain ⟨y, m, d, hh', mm', ss'⟩ := p
  simp only at hy hm1 hm2 hd1 hd2 hh hmin hs
  have htod : hh' * 3600000 + mm' * 60000 + ss' * 1000 < 86400000 := by omega
  have hdiv : partsToMsNat ⟨y, m, d, hh', mm', ss'⟩ / 86400000 = daysSinceEpoch y m d := by
    unfold partsToMsNat
    dsimp only
    omega
  have hmod : partsToMsNat ⟨y, m, d, hh', mm', ss'⟩ % 86400000
      = hh' * 3600000 + mm' * 60000 + ss' * 1000 := by
    unfold partsToMsNat
    dsimp only
    omega
  unfold natMsToParts
  rw [hdiv, hmod, dayToCivil_daysSinceEpoch y m d hy hm1 hm2 hd1 hd2]
  dsimp only
  have h1 : (hh' * 3600000 + mm' * 60000 + ss' * 1000) / 3600000 = hh' := by omega
  have h2 : (hh' * 3600000 + mm' * 60000 + ss' * 1000) % 3600000 / 60000 = mm' := by omega
  have h3 : (hh' * 3600000 + mm' * 60000 + ss' * 1000) % 60000 / 1000 = ss' := by omega
  rw [h1, h2, h3]

/-! ## The US Eastern timezone

Modelled from the spec: the countdown target is expressed in the fixed
civil timezone "09:00 PM US Eastern" (`America/New_York`), resolved by the
host's timezone database, which is not part of the repository.  US Eastern
time is UTC-5 (EST), switching to UTC-4 (EDT) during daylight-saving time;
since 2007, DST runs from 2:00 AM local standard time on the second Sunday
of March (07:00 UTC) until 2:00 AM local daylight time on the first Sunday
of November (06:00 UTC). -/

/-- Day of week of an epoch day number, with 0 = Sunday (day 0,
1970-01-01, was a Thursday). -/
def dayOfWeek (n : Nat) : Nat := (n + 4) % 7

/-- Day of month of the second Sunday of March. -/
def secondSundayOfMarch (y : Nat) : Nat :=
  1 + (7 - dayOfWeek (daysSinceEpoch y 3 1)) % 7 + 7

/-- Day of month of the first Sunday of November. -/
def firstSundayOfNovember (y : Nat) : Nat :=
  1 + (7 - dayOfWeek (daysSinceEpoch y 11 1)) % 7

/-- UTC instant (ms) at which DST begins in year `y`: 07:00 UTC on the
second Sunday of March. -/
def dstStartMs (y : Nat) : Nat :=
  daysSinceEpoch y 3 (secondSundayOfMarch y) * 86400000 + 7 * 3600000

/-- UTC instant (ms) at which DST ends in year `y`: 06:00 UTC on the first
Sunday of November. -/
def dstEndMs (y : Nat) : Nat :=
  daysSinceEpoch y 11 (firstSundayOfNovember y) * 86400000 + 6 * 3600000

/-- Whether a UTC instant falls in US Eastern daylight-saving time. -/
def isEasternDST (t : Int) : Bool :=
  let y := (natMsToParts t.toNat).year
  decide ((dstStartMs y : Int) ≤ t ∧ t < (dstEndMs y : Int))

/-- The UTC offset of US Eastern time at a UTC instant, in milliseconds
(local = UTC + offset): -4 h during DST, -5 h otherwise. -/
def easternOffsetMs (t : Int) : Int :=
  if isEasternDST t then -14400000 else -18000000

/-- `getZonedDateParts(date, 'America/New_York')` (App.tsx lines 214-240):
civil parts of the instant in Eastern time, at second precision.  Supported
domain: instants at or after 1970-01-01T05:00:00Z. -/
def getZonedDateParts (t : Int) : DateParts :=
  natMsToParts (t + easternOffsetMs t).toNat

/-- `getTimeZoneOffsetMs` (App.tsx lines 248-252):
`Date.UTC(parts of date in zone) - date.getTime()`. -/
def getTimeZoneOffsetMs (t : Int) : Int :=
  (partsToMsNat (getZonedDateParts t) : Int) - t

/-- `zonedTimeToUtc` (App.tsx lines 254-264): interpret the parts as UTC,
subtract the zone offset measured at that guess, and re-check the offset
once at the corrected instant (DST-boundary safety). -/
def zonedTimeToUtc (p : DateParts) : Int :=
  let utcGuess : Int := partsToMsNat p
  let offset1 := getTimeZoneOffsetMs utcGuess
  let utc := utcGuess - offset1
  let offset2 := getTimeZoneOffsetMs utc
  if offset2 ≠ offset1 then utcGuess - offset2 else utc

/-- `addDaysToYmd` (App.tsx lines 242-246): calendar-correct day addition
via `Date.UTC` / `setUTCDate`. -/
def addDaysToYmd (y m d days : Nat) : Nat × Nat × Nat :=
  dayToCivil (daysSinceEpoch y m d + days)

/-- `getNextNinePmEasternUtc` (App.tsx lines 266-272): the next 9:00 PM
US Eastern, as a UTC instant. -/
def getNextNinePmEasternUtc (now : Int) : Int :=
  let p := getZonedDateParts now
  let isBeforeNinePm := p.hour < 21
  let ymd := addDaysToYmd p.year p.month p.day (if isBeforeNinePm then 0 else 1)
  zonedTimeToUtc ⟨ymd.1, ymd.2.1, ymd.2.2, 21, 0, 0⟩

/-- `msUntilNinePmEastern` (App.tsx line 319). -/
def msUntilNinePmEastern (now : Int) : Int :=
  getNextNinePmEasternUtc now - now

/-- `isDeadlineReached` (App.tsx line 320). -/
def isDeadlineReached (now : Int) : Bool :=
  decide (msUntilNinePmEastern now ≤ 0)


theorem daysFromYear_succ (y : Nat) (hy : 1970 ≤ y) :
    daysFromYear (y + 1) = daysFromYear y + daysInYear y := by
  unfold daysFromYear
  have h1 : y + 1 - 1970 = (y - 1970) + 1 := by omega
  rw [h1]
  show daysInYearsFrom 1970 (y - 1970) + daysInYear (1970 + (y - 1970)) = _
  have h2 : 1970 + (y - 1970) = y := by omega
  rw [h2]

theorem daysInYearsFrom_mono (y : Nat) {a b : Nat} (h : a ≤ b) :
    daysInYearsFrom y a ≤ daysInYearsFrom y b := by
  induction b with
  | zero =>
    have : a = 0 := by omega
    subst this
    exact le_rfl
  | succ b ih =>
    rcases Nat.lt_or_ge a (b + 1) with h1 | h1
    · have := ih (by omega)
      show _ ≤ daysInYearsFrom y b + daysInYear (y + b)
      omega
    · have : a = b + 1 := by omega
      subst this
      exact le_rfl

theorem daysFromYear_mono {a b : Nat} (h : a ≤ b) :
    daysFromYear a ≤ daysFromYear b := by
  unfold daysFromYear
  exact daysInYearsFrom_mono 1970 (by omega)

/-- A valid civil date's epoch day lies within its year's day range. -/
theorem daysSinceEpoch_range (y m d : Nat) (hm1 : 1 ≤ m) (hm2 : m ≤ 12)
    (hd1 : 1 ≤ d) (hd2 : d ≤ (monthLengths (isLeap y)).getD (m - 1) 0) :
    daysFromYear y ≤ daysSinceEpoch y m d ∧
    daysSinceEpoch y m d < daysFromYear y + daysInYear y := by
  constructor
  · unfold daysSinceEpoch
    omega
  · have h1 := daysBeforeMonth_add_le (isLeap y) m (by omega) hm1
    unfold daysSinceEpoch daysBeforeMonth at *
    rw [daysInYear_eq_monthLengths_sum]
    omega

/-- The civil year of any instant inside a year's UTC extent is that year. -/
theorem natMsToParts_year_eq (t : Nat) (y : Nat) (hy : 1970 ≤ y)
    (h1 : daysFromYear y * 86400000 ≤ t)
    (h2 : t < daysFromYear (y + 1) * 86400000) :
    (natMsToParts t).year = y := by
  have hfy := daysFromYear_succ y hy
  set n := t / 86400000 with hn
  have hn1 : daysFromYear y ≤ n := by omega
  have hn2 : n < daysFromYear y + daysInYear y := by
    have : n < daysFromYear (y + 1) := by omega
    omega
  have hd := dayToCivil_spec n
  set y' := (dayToCivil n).1 with hy'
  have hr := daysSinceEpoch_range y' (dayToCivil n).2.1 (dayToCivil n).2.2
    hd.2.1 hd.2.2.1 hd.2.2.2.1 hd.2.2.2.2.1
  rw [hd.2.2.2.2.2] at hr
  have hyy : y' = y := by
    by_contra hne
    rcases Nat.lt_or_ge y' y with hlt | hge
    · have hm := daysFromYear_mono (show y' + 1 ≤ y by omega)
      have := daysFromYear_succ y' hd.1
      omega
    · have hlt : y < y' := by omega
      have hm := daysFromYear_mono (show y + 1 ≤ y' by omega)
      have := daysFromYear_succ y hy
      omega
  show (dayToCivil (t / 86400000)).1 = y
  rw [← hn, ← hy', hyy]

theorem secondSundayOfMarch_bounds (y : Nat) :
    8 ≤ secondSundayOfMarch y ∧ secondSundayOfMarch y ≤ 14 := by
  unfold secondSundayOfMarch dayOfWeek
  omega

theorem firstSundayOfNovember_bounds (y : Nat) :
    1 ≤ firstSundayOfNovember y ∧ firstSundayOfNovember y ≤ 7 := by
  unfold firstSundayOfNovember dayOfWeek
  omega

theorem daysBeforeMonth_values : ∀ leap : Bool,
    59 ≤ daysBeforeMonth leap 3 ∧ daysBeforeMonth leap 3 ≤ 60 ∧
    304 ≤ daysBeforeMonth leap 11 ∧ daysBeforeMonth leap 11 ≤ 305 := by
  decide

/-- The DST window of a year lies inside that year's UTC extent. -/
theorem dst_window_bounds (y : Nat) (hy : 1970 ≤ y) :
    daysFromYear y * 86400000 ≤ dstStartMs y ∧
    dstStartMs y < dstEndMs y ∧
    dstEndMs y < daysFromYear (y + 1) * 86400000 := by
  have hss := secondSundayOfMarch_bounds y
  have hfs := firstSundayOfNovember_bounds y
  have hdbm := daysBeforeMonth_values (isLeap y)
  have hsucc := daysFromYear_succ y hy
  have hge := daysInYear_ge y
  unfold dstStartMs dstEndMs daysSinceEpoch
  omega

/-- An instant is in US Eastern DST exactly when it lies in some year's DST
window. -/
theorem isEasternDST_iff (t : Int) (ht : 0 ≤ t) :
    isEasternDST t = true ↔
      ∃ y : Nat, 1970 ≤ y ∧ (dstStartMs y : Int) ≤ t ∧ t < (dstEndMs y : Int) := by
  constructor
  · intro h
    unfold isEasternDST at h
    simp only [decide_eq_true_eq] at h
    refine ⟨(natMsToParts t.toNat).year, ?_, h.1, h.2⟩
    show 1970 ≤ (dayToCivil (t.toNat / 86400000)).1
    exact (dayToCivil_spec _).1
  · rintro ⟨y, hy, hw1, hw2⟩
    have hb := dst_window_bounds y hy
    have htn : (t.toNat : Int) = t := Int.toNat_of_nonneg ht
    have hyear : (natMsToParts t.toNat).year = y := by
      apply natMsToParts_year_eq t.toNat y hy
      · omega
      · omega
    unfold isEasternDST
    rw [hyear]
    simp only [decide_eq_true_eq]
    exact ⟨hw1, hw2⟩

/-- If the DST flag differs at two ordered instants, a DST transition
instant lies strictly between them (within the half-open interval). -/
theorem dst_change_has_boundary (a b : Int) (ha : 0 ≤ a) (hab : a ≤ b)
    (hne : isEasternDST a ≠ isEasternDST b) :
    ∃ y : Nat, 1970 ≤ y ∧
      ((a < dstStartMs y ∧ (dstStartMs y : Int) ≤ b) ∨
       (a < dstEndMs y ∧ (dstEndMs y : Int) ≤ b)) := by
  have hb0 : 0 ≤ b := le_trans ha hab
  cases hda : isEasternDST a with
  | true =>
    obtain ⟨y, hy, hw1, hw2⟩ := (isEasternDST_iff a ha).mp hda
    refine ⟨y, hy, Or.inr ⟨hw2, ?_⟩⟩
    by_contra hlt
    push_neg at hlt
    have : isEasternDST b = true :=
      (isEasternDST_iff b hb0).mpr ⟨y, hy, le_trans hw1 hab, hlt⟩
    rw [hda, this] at hne
    exact hne rfl
  | false =>
    have hdb : isEasternDST b = true := by
      cases hdb : isEasternDST b with
      | true => rfl
      | false => rw [hda, hdb] at hne; exact absurd rfl hne
    obtain ⟨y, hy, hw1, hw2⟩ := (isEasternDST_iff b hb0).mp hdb
    refine ⟨y, hy, Or.inl ⟨?_, hw1⟩⟩
    by_contra hle
    push_neg at hle
    have hat : isEasternDST a = true :=
      (isEasternDST_iff a ha).mpr ⟨y, hy, hle, lt_of_le_of_lt hab hw2⟩
    rw [hat] at hda
    exact Bool.noConfusion hda

theorem easternOffsetMs_cases (t : Int) :
    easternOffsetMs t = -14400000 ∨ easternOffsetMs t = -18000000 := by
  unfold easternOffsetMs
  split
  · exact Or.inl rfl
  · exact Or.inr rfl

theorem easternOffsetMs_congr {a b : Int} (h : isEasternDST a = isEasternDST b) :
    easternOffsetMs a = easternOffsetMs b := by
  unfold easternOffsetMs
  rw [h]

/-- Every DST transition instant has time-of-day 06:00 or 07:00 UTC; hence
the DST flag is constant on any interval that contains no instant whose
time-of-day is 06:00 or 07:00 UTC. -/
theorem isEasternDST_eq_of_no_boundary (a b : Int) (ha : 0 ≤ a) (hab : a ≤ b)
    (hnb : ∀ (E : Nat) (r : Nat), r = 21600000 ∨ r = 25200000 →
      ¬(a < (E : Int) * 86400000 + (r : Int) ∧ (E : Int) * 86400000 + (r : Int) ≤ b)) :
    isEasternDST a = isEasternDST b := by
  by_contra hne
  obtain ⟨y, hy, hcase⟩ := dst_change_has_boundary a b ha hab hne
  rcases hcase with ⟨h1, h2⟩ | ⟨h1, h2⟩
  · refine hnb (daysSinceEpoch y 3 (secondSundayOfMarch y)) 25200000 (Or.inr rfl) ⟨?_, ?_⟩
    · have : (dstStartMs y : Int)
          = (daysSinceEpoch y 3 (secondSundayOfMarch y) : Int) * 86400000 + 25200000 := by
        unfold dstStartMs
        push_cast
        ring
      omega
    · have : (dstStartMs y : Int)
          = (daysSinceEpoch y 3 (secondSundayOfMarch y) : Int) * 86400000 + 25200000 := by
        unfold dstStartMs
        push_cast
        ring
      omega
  · refine hnb (daysSinceEpoch y 11 (firstSundayOfNovember y)) 21600000 (Or.inl rfl) ⟨?_, ?_⟩
    · have : (dstEndMs y : Int)
          = (daysSinceEpoch y 11 (firstSundayOfNovember y) : Int) * 86400000 + 21600000 := by
        unfold dstEndMs
        push_cast
        ring
      omega
    · have : (dstEndMs y : Int)
          = (daysSinceEpoch y 11 (firstSundayOfNovember y) : Int) * 86400000 + 21600000 := by
        unfold dstEndMs
        push_cast
        ring
      omega

/-- On its supported domain, and at whole-second instants, the code's
`getTimeZoneOffsetMs` computes exactly the US Eastern UTC offset. -/
theorem getTimeZoneOffsetMs_eq (t : Int) (ht : 18000000 ≤ t)
    (hmod : t % 1000 = 0) :
    getTimeZoneOffsetMs t = easternOffsetMs t := by
  have hoff := easternOffsetMs_cases t
  have hnn : 0 ≤ t + easternOffsetMs t := by omega
  have htn : ((t + easternOffsetMs t).toNat : Int) = t + easternOffsetMs t :=
    Int.toNat_of_nonneg hnn
  unfold getTimeZoneOffsetMs getZonedDateParts
  rw [partsToMsNat_natMsToParts]
  omega

/-- Unfolding of `zonedTimeToUtc`. -/
theorem zonedTimeToUtc_eq (p : DateParts) :
    zonedTimeToUtc p =
      (if getTimeZoneOffsetMs ((partsToMsNat p : Int) - getTimeZoneOffsetMs (partsToMsNat p))
            ≠ getTimeZoneOffsetMs (partsToMsNat p)
       then (partsToMsNat p : Int)
          - getTimeZoneOffsetMs ((partsToMsNat p : Int) - getTimeZoneOffsetMs (partsToMsNat p))
       else (partsToMsNat p : Int) - getTimeZoneOffsetMs (partsToMsNat p)) := rfl

/-- Resolving the 9 PM Eastern target of a civil day: the DST re-check
never fires (no DST transition occurs between 21:00 UTC and the candidate
instants 01:00/02:00 UTC of the next day), the result is the day's 21:00
local reading shifted by the offset in force, and its Eastern civil reading
is exactly 21:00:00 of that day. -/
theorem nine_pm_target (D : Nat) :
    zonedTimeToUtc ⟨(dayToCivil D).1, (dayToCivil D).2.1, (dayToCivil D).2.2, 21, 0, 0⟩
      = ((D : Int) * 86400000 + 75600000)
          - easternOffsetMs ((D : Int) * 86400000 + 75600000) ∧
    getZonedDateParts
        (zonedTimeToUtc ⟨(dayToCivil D).1, (dayToCivil D).2.1, (dayToCivil D).2.2, 21, 0, 0⟩)
      = ⟨(dayToCivil D).1, (dayToCivil D).2.1, (dayToCivil D).2.2, 21, 0, 0⟩ := by
  have hd := dayToCivil_spec D
  set p : DateParts := ⟨(dayToCivil D).1, (dayToCivil D).2.1, (dayToCivil D).2.2, 21, 0, 0⟩
    with hp
  set g : Int := (D : Int) * 86400000 + 75600000 with hgdef
  have hD0 : (0 : Int) ≤ (D : Int) := Int.ofNat_nonneg D
  have hg1 : 18000000 ≤ g := by omega
  have hgmod : g % 1000 = 0 := by omega
  have hoffg : easternOffsetMs g % 1000 = 0 ∧ -18000000 ≤ easternOffsetMs g ∧
      (easternOffsetMs g = -14400000 ∨ easternOffsetMs g = -18000000) := by
    rcases easternOffsetMs_cases g with h | h <;> rw [h] <;> norm_num
  set u : Int := g - easternOffsetMs g with hudef
  have hu1 : 18000000 ≤ u := by omega
  have humod : u % 1000 = 0 := by omega
  have hof1 : getTimeZoneOffsetMs g = easternOffsetMs g :=
    getTimeZoneOffsetMs_eq g hg1 hgmod
  have hof2 : getTimeZoneOffsetMs u = easternOffsetMs u :=
    getTimeZoneOffsetMs_eq u hu1 humod
  have hpg : (partsToMsNat p : Int) = (D : Int) * 86400000 + 75600000 := by
    unfold partsToMsNat
    rw [hp]
    dsimp only
    rw [hd.2.2.2.2.2]
    push_cast
    ring
  have hsame : isEasternDST u = isEasternDST g := by
    refine (isEasternDST_eq_of_no_boundary g u (by omega) (by omega) ?_).symm
    intro E r hr hcon
    rcases hr with rfl | rfl <;> omega
  have hoffu : easternOffsetMs u = easternOffsetMs g := easternOffsetMs_congr hsame
  have hz : zonedTimeToUtc p = u := by
    rw [zonedTimeToUtc_eq, hpg, ← hgdef, hof1, ← hudef, hof2, hoffu]
    rw [if_neg (fun h => h rfl)]
  refine ⟨hz, ?_⟩
  rw [hz]
  unfold getZonedDateParts
  have harg : u + easternOffsetMs u = g := by
    rw [hoffu]
    omega
  rw [harg]
  have hgnat : g.toNat = partsToMsNat p := by
    omega
  rw [hgnat]
  apply natMsToParts_partsToMsNat p
  · exact hd.1
  · exact hd.2.1
  · exact hd.2.2.1
  · exact hd.2.2.2.1
  · exact hd.2.2.2.2.1
  · rw [hp]
    show (21 : Nat) < 24
    decide
  · rw [hp]
    show (0 : Nat) < 60
    decide
  · rw [hp]
    show (0 : Nat) < 60
    decide

theorem easternOffsetMs_props (t : Int) :
    easternOffsetMs t % 1000 = 0 ∧ -18000000 ≤ easternOffsetMs t ∧
      easternOffsetMs t ≤ -14400000 ∧
      (easternOffsetMs t = -14400000 ∨ easternOffsetMs t = -18000000) := by
  rcases easternOffsetMs_cases t with h | h <;> rw [h] <;> norm_num

theorem getZonedDateParts_toNat (now : Int) (lnow : Nat)
    (hl : (lnow : Int) = now + easternOffsetMs now) :
    getZonedDateParts now = natMsToParts lnow := by
  unfold getZonedDateParts
  congr 1
  rw [← hl]
  exact Int.toNat_natCast lnow

/-- Unfolding of `getNextNinePmEasternUtc`. -/
theorem getNextNinePmEasternUtc_eq (now : Int) :
    getNextNinePmEasternUtc now =
      zonedTimeToUtc
        ⟨(addDaysToYmd (getZonedDateParts now).year (getZonedDateParts now).month
            (getZonedDateParts now).day
            (if (getZonedDateParts now).hour < 21 then 0 else 1)).1,
         (addDaysToYmd (getZonedDateParts now).year (getZonedDateParts now).month
            (getZonedDateParts now).day
            (if (getZonedDateParts now).hour < 21 then 0 else 1)).2.1,
         (addDaysToYmd (getZonedDateParts now).year (getZonedDateParts now).month
            (getZonedDateParts now).day
            (if (getZonedDateParts now).hour < 21 then 0 else 1)).2.2, 21, 0, 0⟩ := rfl

/-- An Eastern civil reading of exactly 21:00:00 (one "9 PM occurrence"). -/
def readsNinePm (p : DateParts) : Prop :=
  p.hour = 21 ∧ p.minute = 0 ∧ p.second = 0

theorem easternOffsetMs_eq_dst_iff (x : Int) :
    easternOffsetMs x = -14400000 ↔ isEasternDST x = true := by
  by_cases hb : isEasternDST x = true
  · simp [easternOffsetMs, hb]
  · have hb' : isEasternDST x = false := by
      cases h : isEasternDST x
      · rfl
      · exact absurd h hb
    simp [easternOffsetMs, hb']

set_option maxHeartbeats 1000000 in
/-- Claim C6: for every instant in the supported domain, the deadline
computation returns the next future occurrence of 9:00 PM America/New_York:
the result is strictly in the future, its Eastern civil reading is exactly
21:00:00 on today's Eastern date (when the current Eastern reading is before
21:00) or on the next date (otherwise), and no instant strictly between now
and the result reads 21:00:00 unless now itself is inside the 21:00:00
second.  The local-to-UTC conversion applies the offset at a first estimate
and recomputes exactly once more if the offset changed (`zonedTimeToUtc`);
in particular a DST boundary between now and the target never shifts the
computed 9 PM reading by an hour. -/
theorem claim_C6_next_nine_pm_eastern (now : Int) (hnow : 18000000 ≤ now) :
    now < getNextNinePmEasternUtc now ∧
    getZonedDateParts (getNextNinePmEasternUtc now) =
      ⟨(addDaysToYmd (getZonedDateParts now).year (getZonedDateParts now).month
          (getZonedDateParts now).day
          (if (getZonedDateParts now).hour < 21 then 0 else 1)).1,
       (addDaysToYmd (getZonedDateParts now).year (getZonedDateParts now).month
          (getZonedDateParts now).day
          (if (getZonedDateParts now).hour < 21 then 0 else 1)).2.1,
       (addDaysToYmd (getZonedDateParts now).year (getZonedDateParts now).month
          (getZonedDateParts now).day
          (if (getZonedDateParts now).hour < 21 then 0 else 1)).2.2, 21, 0, 0⟩ ∧
    (∀ t : Int, now < t → t < getNextNinePmEasternUtc now →
      readsNinePm (getZonedDateParts t) → readsNinePm (getZonedDateParts now)) := by
  obtain ⟨hBmod, hBlo, hBhi, hBcases⟩ := easternOffsetMs_props now
  have hl0 : 0 ≤ now + easternOffsetMs now := by omega
  obtain ⟨lnow, hl⟩ : ∃ lnow : Nat, (lnow : Int) = now + easternOffsetMs now :=
    ⟨(now + easternOffsetMs now).toNat, Int.toNat_of_nonneg hl0⟩
  have hParts : getZonedDateParts now = natMsToParts lnow :=
    getZonedDateParts_toNat now lnow hl
  set n := lnow / 86400000 with hn
  set rem := lnow % 86400000 with hrem
  have hsplit : lnow = 86400000 * n + rem ∧ rem < 86400000 := by omega
  have hd := dayToCivil_spec n
  have hhour : (getZonedDateParts now).hour = rem / 3600000 := by
    rw [hParts]
    rfl
  have hdse : daysSinceEpoch (getZonedDateParts now).year
      (getZonedDateParts now).month (getZonedDateParts now).day = n := by
    rw [hParts]
    exact hd.2.2.2.2.2
  clear_value n rem
  set k := (if (getZonedDateParts now).hour < 21 then 0 else 1) with hk
  have hadd : addDaysToYmd (getZonedDateParts now).year
      (getZonedDateParts now).month (getZonedDateParts now).day k
        = dayToCivil (n + k) := by
    unfold addDaysToYmd
    rw [hdse]
  have hnext : getNextNinePmEasternUtc now
      = zonedTimeToUtc ⟨(dayToCivil (n + k)).1, (dayToCivil (n + k)).2.1,
          (dayToCivil (n + k)).2.2, 21, 0, 0⟩ := by
    rw [getNextNinePmEasternUtc_eq, hadd]
  have h9 := nine_pm_target (n + k)
  rw [← hnext] at h9
  obtain ⟨hGmod, hGlo, hGhi, hGcases⟩ :=
    easternOffsetMs_props (((n + k : Nat) : Int) * 86400000 + 75600000)
  have hr : getNextNinePmEasternUtc now
      = ((n + k : Nat) : Int) * 86400000 + 75600000
          - easternOffsetMs (((n + k : Nat) : Int) * 86400000 + 75600000) := h9.1
  have hk01 : k = 0 ∨ k = 1 := by
    rw [hk]
    split
    · exact Or.inl rfl
    · exact Or.inr rfl
  refine ⟨?_, ?_, ?_⟩
  · -- the target is strictly in the future
    have hn0 : (0 : Int) ≤ (n : Int) := Int.ofNat_nonneg n
    by_cases hh : rem < 75600000
    · have hk0 : k = 0 := by
        rw [hk, if_pos]
        rw [hhour]
        omega
      rw [hr, hk0]
      simp only [Nat.add_zero]
      clear hd h9 hnext hadd hdse hParts hk01 hr hGmod hGlo hGhi hGcases hk hhour hk0
      rcases easternOffsetMs_cases (((n : Nat) : Int) * 86400000 + 75600000) with hG | hG <;>
        rcases hBcases with hB | hB
      · omega
      · by_cases hcrit : rem < 72000000
        · omega
        · exfalso
          have hsame : isEasternDST (((n : Nat) : Int) * 86400000 + 75600000)
              = isEasternDST now := by
            apply isEasternDST_eq_of_no_boundary
            · omega
            · omega
            · intro E r' hr' hcon
              rcases hr' with rfl | rfl <;> omega
          have hc := easternOffsetMs_congr hsame
          rw [hG, hB] at hc
          norm_num at hc
      · omega
      · omega
    · have hk1 : k = 1 := by
        rw [hk, if_neg]
        rw [hhour]
        omega
      rw [hr, hk1]
      clear hd h9 hnext hadd hdse hParts hk01 hr hGmod hGlo hGhi hGcases hk hhour hk1
      push_cast
      rcases easternOffsetMs_cases (((n : Int) + 1) * 86400000 + 75600000) with hG | hG <;>
        rcases hBcases with hB | hB <;>
        omega
  · -- parts of r
    rw [hadd]
    exact h9.2
  · -- minimality: no fresh 9 PM reading strictly between now and the target
    intro t ht1 ht2 h9pm
    obtain ⟨hCmod, hClo, hChi, hCcases⟩ := easternOffsetMs_props t
    have hlt0 : 0 ≤ t + easternOffsetMs t := by
      clear hd h9 hnext hadd hdse hParts hr hGmod hGlo hGhi hGcases hk hhour hk01 ht2 h9pm
      omega
    obtain ⟨ltn, hltc⟩ : ∃ u : Nat, (u : Int) = t + easternOffsetMs t :=
      ⟨(t + easternOffsetMs t).toNat, Int.toNat_of_nonneg hlt0⟩
    have hPt : getZonedDateParts t = natMsToParts ltn :=
      getZonedDateParts_toNat t ltn hltc
    have hwin : 75600000 ≤ ltn % 86400000 ∧ ltn % 86400000 < 75601000 := by
      rw [hPt] at h9pm
      obtain ⟨h1, h2, h3⟩ := h9pm
      have e1 : ltn % 86400000 / 3600000 = 21 := h1
      have e2 : ltn % 86400000 % 3600000 / 60000 = 0 := h2
      have e3 : ltn % 86400000 % 60000 / 1000 = 0 := h3
      clear hd h9 hnext hadd hdse hParts hPt hr hGmod hGlo hGhi hGcases hk hhour hk01
        ht1 ht2 h1 h2 h3
      omega
    have hn0 : (0 : Int) ≤ (n : Int) := Int.ofNat_nonneg n
    by_cases hh : rem < 75600000
    · -- today's target: any 9 PM reading before it would be at or after it
      exfalso
      have hk0 : k = 0 := by
        rw [hk, if_pos]
        rw [hhour]
        clear * - hh
        omega
      rw [hr, hk0] at ht2
      simp only [Nat.add_zero] at ht2
      obtain ⟨hG1, hG2, hG3, hG4⟩ :=
        easternOffsetMs_props ((n : Int) * 86400000 + 75600000)
      have hup : (ltn : Int) < (n : Int) * 86400000 + 79200000 := by
        clear * - hltc ht2 hChi hG2
        omega
      have hdown : (lnow : Int) - 3600000 < (ltn : Int) := by
        clear * - hltc ht1 hClo hl hBhi
        omega
      have hgwin : ((n : Int)) * 86400000 + 75600000 ≤ (ltn : Int) ∧
          (ltn : Int) < (n : Int) * 86400000 + 75601000 := by
        clear * - hwin hup hdown hsplit hh
        omega
      have hsame : isEasternDST ((n : Int) * 86400000 + 75600000) = isEasternDST t := by
        apply isEasternDST_eq_of_no_boundary
        · clear * - hn0
          omega
        · clear * - hltc hChi hgwin
          omega
        · intro E' r' hr' hcon
          rcases hr' with rfl | rfl <;>
            (clear * - hgwin hltc hClo hcon
             omega)
      have hoff := easternOffsetMs_congr hsame
      clear * - hoff hltc hgwin ht2
      omega
    · have hk1 : k = 1 := by
        rw [hk, if_neg]
        rw [hhour]
        clear hd h9 hnext hadd hdse hParts hPt hr hGmod hGlo hGhi hGcases hk ht1 ht2 h9pm
        omega
      rw [hr, hk1] at ht2
      obtain ⟨hH1, hH2, hH3, hH4⟩ :=
        easternOffsetMs_props (((n + 1 : Nat) : Int) * 86400000 + 75600000)
      have hup : (ltn : Int) < ((n + 1 : Nat) : Int) * 86400000 + 79200000 := by
        clear * - hltc ht2 hChi hH2
        omega
      have hdown : (lnow : Int) - 3600000 < (ltn : Int) := by
        clear * - hltc ht1 hClo hl hBhi
        omega
      by_cases hEcase : 86400000 * (n + 1) ≤ ltn
      · -- the reading is tomorrow's 21:00 second: it cannot precede the target
        exfalso
        have hgwin : ((n + 1 : Nat) : Int) * 86400000 + 75600000 ≤ (ltn : Int) ∧
            (ltn : Int) < ((n + 1 : Nat) : Int) * 86400000 + 75601000 := by
          clear * - hwin hup hEcase
          omega
        have hsame : isEasternDST (((n + 1 : Nat) : Int) * 86400000 + 75600000)
            = isEasternDST t := by
          apply isEasternDST_eq_of_no_boundary
          · clear * - hgwin
            omega
          · clear * - hltc hChi hgwin
            omega
          · intro E' r' hr' hcon
            rcases hr' with rfl | rfl <;>
              (clear * - hgwin hltc hClo hcon
               omega)
        have hoff := easternOffsetMs_congr hsame
        clear * - hoff hltc hgwin ht2
        omega
      · -- the reading is today's 21:00 second
        have hgwin : ((n : Int)) * 86400000 + 75600000 ≤ (ltn : Int) ∧
            (ltn : Int) < (n : Int) * 86400000 + 75601000 := by
          clear * - hwin hup hdown hEcase hsplit hh
          omega
        by_cases hrem9 : rem < 75601000
        · -- now itself is inside the 21:00:00 second
          rw [hParts]
          refine ⟨?_, ?_, ?_⟩
          · show lnow % 86400000 / 3600000 = 21
            clear * - hrem hh hrem9
            omega
          · show lnow % 86400000 % 3600000 / 60000 = 0
            clear * - hrem hh hrem9
            omega
          · show lnow % 86400000 % 60000 / 1000 = 0
            clear * - hrem hh hrem9
            omega
        · -- otherwise today's 21:00 second is already past
          exfalso
          rcases hCcases with hC | hC <;> rcases hBcases with hB | hB
          · clear * - ht1 hl hltc hC hB hwin hsplit hh hrem9 hgwin hrem
            omega
          · clear * - ht1 hl hltc hC hB hwin hsplit hh hrem9 hgwin hrem
            omega
          · have hsame : isEasternDST now = isEasternDST t := by
              apply isEasternDST_eq_of_no_boundary
              · clear * - hnow
                omega
              · clear * - ht1
                omega
              · intro E' r' hr' hcon
                rcases hr' with rfl | rfl <;>
                  (clear * - hl hB hltc hC hsplit hrem9 hwin hgwin hcon hrem hh
                   omega)
            have hoff := easternOffsetMs_congr hsame
            rw [hB, hC] at hoff
            norm_num at hoff
          · clear * - ht1 hl hltc hC hB hwin hsplit hh hrem9 hgwin hrem
            omega

set_option maxRecDepth 10000 in
/-- Witness for claim C6 at a concrete instant on the 2026 spring-forward
day (2026-03-08 01:00 EST, i.e. 06:00 UTC; the DST boundary lies between now
and the target): the computed target is in the future and reads exactly
9:00:00 PM Eastern on the same civil day — the boundary does not shift it by
an hour. -/
theorem claim_C6_witness :
    (18000000 : Int) ≤ (partsToMsNat ⟨2026, 3, 8, 6, 0, 0⟩ : Int) ∧
    (partsToMsNat ⟨2026, 3, 8, 6, 0, 0⟩ : Int)
      < getNextNinePmEasternUtc (partsToMsNat ⟨2026, 3, 8, 6, 0, 0⟩ : Int) ∧
    getZonedDateParts (getNextNinePmEasternUtc (partsToMsNat ⟨2026, 3, 8, 6, 0, 0⟩ : Int))
      = ⟨2026, 3, 8, 21, 0, 0⟩ := by
  have h := claim_C6_next_nine_pm_eastern (partsToMsNat ⟨2026, 3, 8, 6, 0, 0⟩ : Int)
    (by decide)
  refine ⟨by decide, h.1, ?_⟩
  rw [h.2.1]
  decide

set_option maxRecDepth 10000 in
/-- Claim C2 counterexample: with "now" one second past 9 PM Eastern
(2025-12-31 21:00:01 EST = 2026-01-01 02:00:01 UTC) the computed remaining
time is 86,399,000 ms — the next day's 9 PM — not 0, and
`isDeadlineReached` is false. -/
theorem claim_C2_counterexample :
    msUntilNinePmEastern (partsToMsNat ⟨2026, 1, 1, 2, 0, 1⟩ : Int) = 86399000 ∧
    isDeadlineReached (partsToMsNat ⟨2026, 1, 1, 2, 0, 1⟩ : Int) = false := by
  constructor <;> decide

set_option maxRecDepth 10000 in
/-- Claim C2 (amended): with "now" = 8:59:59 PM US Eastern
(2025-12-31 20:59:59 EST) the computed remaining time is exactly 1000 ms;
with "now" = 9:00:01 PM US Eastern the computation targets the next day's
9 PM, so the remaining time is 86,399,000 ms and `isDeadlineReached` is
false (the target is always strictly in the future, so the flag never
becomes true). -/
theorem claim_C2_countdown_at_concrete_instants :
    msUntilNinePmEastern (partsToMsNat ⟨2026, 1, 1, 1, 59, 59⟩ : Int) = 1000 ∧
    isDeadlineReached (partsToMsNat ⟨2026, 1, 1, 1, 59, 59⟩ : Int) = false ∧
    msUntilNinePmEastern (partsToMsNat ⟨2026, 1, 1, 2, 0, 1⟩ : Int) = 86399000 ∧
    isDeadlineReached (partsToMsNat ⟨2026, 1, 1, 2, 0, 1⟩ : Int) = false := by
  refine ⟨by decide, by decide, by decide, by decide⟩
